import Mathlib

/-!
# Verification of the wind version-control engine core

Shallow embedding, in Lean 4, of the core subsystems of the `wind`
version-control engine: OID hex parsing (`wind-storage/src/oid.rs`),
the synchronous object store (`wind-storage/src/object_store.rs`),
the content-defined chunker (`wind-storage/src/chunker.rs`),
the changeset / manifest model and the three-way merge engine
(`wind-core/src/model.rs`, `wind-core/src/merge.rs`),
the working-copy scan with its ignore rules and rename detection
(`crates/wind/src/working_copy.rs`),
the Git exporter's tree construction (`wind-bridge/src/exporter.rs`),
and the path index (`wind-core/src/index.rs`).

Machine integers are embedded as `Nat` (with explicit wrapping where the
Rust code casts), byte buffers as `List Nat`, Rust `String` as Lean
`String`.  External library functions (BLAKE3, zstd, FastCDC) are taken
as parameters constrained exactly by their documented contracts.
-/

set_option autoImplicit false

namespace Wind

/-! ## Hex encoding and OID parsing (`crates/wind-storage/src/oid.rs`) -/

/-- Lowercase hex character of a value below 16, as used by
`format!("{b:02x}")`: `0`-`9` then `a`-`f`. -/
def hexChar (n : Nat) : Char :=
  if n < 10 then Char.ofNat (48 + n) else Char.ofNat (87 + n)

/-- The two lowercase hex characters of one byte, as in `format!("{b:02x}")`. -/
def hexByte (b : Nat) : List Char := [hexChar (b / 16 % 16), hexChar (b % 16)]

/-- `Oid::to_hex`: each byte rendered as two lowercase hex characters. -/
def toHex (bytes : List Nat) : String := String.mk (bytes.flatMap hexByte)

/-- Value of one character as a base-16 digit, as accepted by Rust's
`from_str_radix(_, 16)`: `0-9`, `a-f` and `A-F`. -/
def hexVal (c : Char) : Option Nat :=
  if '0' ≤ c ∧ c ≤ '9' then some (c.toNat - '0'.toNat)
  else if 'a' ≤ c ∧ c ≤ 'f' then some (c.toNat - 'a'.toNat + 10)
  else if 'A' ≤ c ∧ c ≤ 'F' then some (c.toNat - 'A'.toNat + 10)
  else none

/-- Digit run of `u8::from_str_radix(_, 16)`: at least one digit, every
character a base-16 digit, accumulated value checked against `u8::MAX`. -/
def parseHexDigits : List Nat → Option Nat
  | [] => some 0
  | d :: rest => (parseHexDigits rest).bind fun acc =>
      let acc' := acc * 16 + d
      if acc' ≤ 255 then some acc' else none

/-- Helper: read the digit characters left to right. -/
def digitsOf : List Char → Option (List Nat)
  | [] => some []
  | c :: rest => (hexVal c).bind fun d => (digitsOf rest).map fun ds => d :: ds

/-- Accumulate digit values left to right with the `u8` overflow check of
`from_str_radix`. -/
def accumDigits (ds : List Nat) : Option Nat :=
  ds.foldlM (fun acc d => let a := acc * 16 + d; if a ≤ 255 then some a else none) 0

/-- `u8::from_str_radix(s, 16)`: an optional leading sign (`+` accepted,
`-` rejected for an unsigned target), then a non-empty run of base-16
digits, with an overflow check against `u8::MAX`. -/
def fromStrRadix16u8 (s : List Char) : Option Nat :=
  let body := match s with
    | '+' :: rest => some rest
    | '-' :: _ => none
    | other => some other
  body.bind fun cs =>
    if cs.isEmpty then none
    else (digitsOf cs).bind accumDigits

/-- The 32 byte-parsing steps of `Oid::from_hex`: consume the characters
two at a time, each pair through `u8::from_str_radix(_, 16)`. -/
def parsePairs : List Char → Option (List Nat)
  | [] => some []
  | c1 :: c2 :: rest =>
      (fromStrRadix16u8 [c1, c2]).bind fun b =>
        (parsePairs rest).map fun bs => b :: bs
  | [_] => none

/-- `Oid::from_hex`: reject when the length is not 64, otherwise parse the
32 two-character groups with `u8::from_str_radix(_, 16)`.  (The Rust code
measures and slices the string in bytes; this embedding covers ASCII
inputs, where bytes and characters coincide.) -/
def fromHex (s : String) : Option (List Nat) :=
  if s.data.length ≠ 64 then none
  else parsePairs s.data

/-- A character is a hexadecimal digit (`0-9`, `a-f`, `A-F`). -/
def isHexChar (c : Char) : Bool :=
  decide (('0' ≤ c ∧ c ≤ '9') ∨ ('a' ≤ c ∧ c ≤ 'f') ∨ ('A' ≤ c ∧ c ≤ 'F'))

/-- A rendered object-store OID: 64 characters, all hexadecimal.  Every
string produced by `Oid::to_hex` (hence every OID string returned by the
object store) satisfies this. -/
def IsOidHex (s : String) : Prop :=
  s.data.length = 64 ∧ ∀ c ∈ s.data, isHexChar c = true

instance (s : String) : Decidable (IsOidHex s) := by
  unfold IsOidHex; infer_instance

/-- Modelled from the spec: the bytes a hexadecimal string of even
length decodes to, two characters per byte, high digit first. -/
def specHexDecode : List Char → List Nat
  | c1 :: c2 :: rest =>
      ((hexVal c1).getD 0 * 16 + (hexVal c2).getD 0) :: specHexDecode rest
  | _ => []

/-- A byte list is a well-formed OID payload: 32 bytes, each below 256. -/
def ValidBytes (bytes : List Nat) : Prop :=
  bytes.length = 32 ∧ ∀ b ∈ bytes, b < 256

/-- `Oid::fanout_path`: first two hex characters name the directory, the
remaining 62 the file. -/
def fanoutPath (hex : String) : String × String :=
  (hex.take 2, hex.drop 2)

/-! ## The synchronous object store
(`impl SyncObjectStore for FileSystemStore`,
`crates/wind-storage/src/object_store.rs`)

The external libraries are parameters: `hash` stands for
`Oid::hash_bytes` (BLAKE3, 32-byte digest), `compress` / `decompress`
for `zstd::encode_all(_, 3)` / `zstd::decode_all`.  The filesystem under
`base_path` is a partial map from fan-out paths to file contents. -/

structure StoreModel where
  hash : List Nat → List Nat
  compress : List Nat → List Nat
  decompress : List Nat → List Nat

/-- The files under the store's `base_path`, keyed by fan-out path. -/
def Fs := String × String → Option (List Nat)

/-- The empty directory. -/
def Fs.empty : Fs := fun _ => none

/-- Writing one file (`std::fs::write`). -/
def Fs.write (fs : Fs) (key : String × String) (contents : List Nat) : Fs :=
  fun k => if k = key then some contents else fs k

/-- `FileSystemStore::exists`: parse the hex string; when it parses,
test existence of the fan-out path. -/
def storeExists (fs : Fs) (oidStr : String) : Bool :=
  match fromHex oidStr with
  | some oid => (fs (fanoutPath (toHex oid))).isSome
  | none => false

/-- `SyncObjectStore::write` of `FileSystemStore`: hash the data, render
the OID, short-circuit when a file already exists at its fan-out path,
otherwise write the zstd-compressed bytes there.  Returns the OID string
and the updated filesystem. -/
def storeWrite (M : StoreModel) (fs : Fs) (data : List Nat) : String × Fs :=
  let oid := M.hash data
  let oidStr := toHex oid
  if storeExists fs oidStr then (oidStr, fs)
  else (oidStr, fs.write (fanoutPath oidStr) (M.compress data))

/-- `SyncObjectStore::read` of `FileSystemStore`: parse the OID string,
read the file at its fan-out path, decompress. -/
def storeRead (M : StoreModel) (fs : Fs) (oidStr : String) : Option (List Nat) :=
  (fromHex oidStr).bind fun oid =>
    (fs (fanoutPath (toHex oid))).map M.decompress

/-- The digests produced by the hash are well-formed 32-byte OIDs.
True of BLAKE3. -/
def HashValid (M : StoreModel) : Prop :=
  ∀ d, ValidBytes (M.hash d)

/-- Decompression undoes compression.  True of zstd on its own output. -/
def CompressionFaithful (M : StoreModel) : Prop :=
  ∀ d, M.decompress (M.compress d) = d

/-- Every file in the store directory is the compressed form of some
buffer filed under that buffer's own fan-out path.  Holds of the empty
directory and is preserved by `storeWrite`. -/
def StoreConsistent (M : StoreModel) (fs : Fs) : Prop :=
  ∀ key c, fs key = some c →
    ∃ d, key = fanoutPath (toHex (M.hash d)) ∧ c = M.compress d

/-- A concrete store model used to evaluate the round-trip theorem: a
(degenerate) digest function that is collision-free at the buffer
`[42]`, with the identity as codec. -/
def probeModel : StoreModel :=
  { hash := fun d => if d = [42] then List.replicate 32 0 else List.replicate 32 1,
    compress := id, decompress := id }

/-! ## The content-defined chunker (`crates/wind-storage/src/chunker.rs`)

`Chunker::chunk_bytes` drives the `FastCDC` iterator of the external
`fastcdc` crate (ronomon variant).  The iterator is a parameter
constrained by its documented contract: on non-empty input it yields a
non-empty run of contiguous `(offset, length)` entries covering the
input, every length at most `max_size`, every length positive, and every
length except possibly the last at least `min_size` (the final chunk of
an input — in particular the single chunk of an input shorter than
`min_size` — may be shorter). -/

structure ChunkerCfg where
  min_size : Nat
  avg_size : Nat
  max_size : Nat

/-- `Chunker::default()`: 4 KiB / 64 KiB / 256 KiB. -/
def defaultCfg : ChunkerCfg := ⟨4 * 1024, 64 * 1024, 256 * 1024⟩

/-- One element of `chunk_bytes`' result. -/
structure Chunk where
  data : List Nat
  oid : List Nat
  offset : Nat
  length : Nat
  deriving DecidableEq, Repr

/-- A cutter: the `(offset, length)` entries the `FastCDC` iterator
yields for a given configuration and input. -/
def Cutter := ChunkerCfg → List Nat → List (Nat × Nat)

/-- Entries are contiguous starting at `start` and their lengths sum to
`total`. -/
def Contiguous : Nat → Nat → List (Nat × Nat) → Prop
  | start, total, [] => start = total
  | start, total, (off, len) :: rest => off = start ∧ Contiguous (start + len) total rest

/-- The documented FastCDC contract (ronomon variant), relative to a
configuration: on non-empty input the entries are non-empty, contiguous
from offset 0 and cover the input; every length is positive and at most
`max_size`; and every entry except the last is at least `min_size` long
(the final chunk — in particular the single chunk of an input shorter
than `min_size` — may be shorter). -/
def FastCDCContract (cfg : ChunkerCfg) (cut : Cutter) : Prop :=
  ∀ data : List Nat, data ≠ [] →
    cut cfg data ≠ [] ∧
    Contiguous 0 data.length (cut cfg data) ∧
    (∀ e ∈ cut cfg data, 0 < e.2 ∧ e.2 ≤ cfg.max_size) ∧
    (∀ e ∈ (cut cfg data).dropLast, cfg.min_size ≤ e.2)

/-- The loop body of `chunk_bytes`: slice `data[entry.offset ..
entry.offset + entry.length]`, hash the slice, record the running
offset. -/
def chunkLoop (hash : List Nat → List Nat) (data : List Nat) :
    List (Nat × Nat) → Nat → List Chunk
  | [], _ => []
  | (eoff, elen) :: rest, off =>
      let chunkData := (data.drop eoff).take elen
      { data := chunkData, oid := hash chunkData, offset := off, length := elen } ::
        chunkLoop hash data rest (off + elen)

/-- `Chunker::chunk_bytes`: empty input short-circuits to the empty
sequence; otherwise each iterator entry becomes a chunk. -/
def chunkBytes (cut : Cutter) (hash : List Nat → List Nat)
    (cfg : ChunkerCfg) (data : List Nat) : List Chunk :=
  if data = [] then []
  else chunkLoop hash data (cut cfg data) 0

/-- Helper for `chopCut`: greedy pieces of `bump + 1` bytes each, cut
from a `rem`-byte remainder starting at offset `start`. -/
def chopFrom (bump : Nat) : Nat → Nat → List (Nat × Nat)
  | 0, _ => []
  | rem + 1, start =>
      if rem + 1 ≤ bump + 1 then [(start, rem + 1)]
      else (start, bump + 1) :: chopFrom bump (rem - bump) (start + (bump + 1))
  termination_by rem _ => rem
  decreasing_by omega

/-- A concrete cutter satisfying the FastCDC contract: greedily emit
`max_size`-byte entries, with a shorter final entry.  Used to evaluate
the embedding on concrete inputs. -/
def chopCut : Cutter := fun cfg data => chopFrom (max 1 cfg.max_size - 1) data.length 0

/-! ## Changeset model and manifests (`wind-core/src/model.rs`)

`NodeId` and OIDs travel as strings.  A `Manifest` wraps a
`BTreeMap<String, ManifestEntry>`; the map is embedded as an association
list in ascending key order (which is the order `values()` iterates). -/

def NodeId := String
deriving instance DecidableEq, Repr for NodeId

/-- `model.rs` `ManifestEntry`. -/
structure ManifestEntry where
  node_id : String
  oid : String
  permissions : Nat
  deriving DecidableEq, Repr

/-- `model.rs` `Manifest`: entries keyed by path, in ascending path
order. -/
structure Manifest where
  entries : List (String × ManifestEntry)
  deriving DecidableEq, Repr

/-- `model.rs` `FileChange`. -/
inductive FileChange where
  | added (oid : String)
  | modified (oid : String)
  | deleted
  | renamed (fromNode : String) (oid : String)
  deriving DecidableEq, Repr

/-- `model.rs` `Changeset`. -/
structure Changeset where
  id : String
  parents : List String
  changes : List (String × FileChange)
  commit_message : String
  author : String
  timestamp : Int
  root_manifest : String
  deriving DecidableEq, Repr

/-- `Changeset::new`.  The call `Uuid::new_v4().to_string()` and
`chrono::Utc::now().timestamp()` draw on the environment; the drawn
values enter the embedding as the explicit arguments `uuid` and `now`. -/
def Changeset.new (parents : List String) (changes : List (String × FileChange))
    (commit_message author root_manifest : String)
    (uuid : String) (now : Int) : Changeset :=
  { id := uuid, parents := parents, changes := changes,
    commit_message := commit_message, author := author,
    timestamp := now, root_manifest := root_manifest }

/-- The canonical hyphen positions of a `Uuid::to_string()` rendering:
36 characters with hyphens at positions 8, 13, 18 and 23. -/
def IsUuidString (s : String) : Prop :=
  s.data.length = 36 ∧
  s.data.getD 8 ' ' = '-' ∧ s.data.getD 13 ' ' = '-' ∧
  s.data.getD 18 ' ' = '-' ∧ s.data.getD 23 ' ' = '-'

instance (s : String) : Decidable (IsUuidString s) := by
  unfold IsUuidString; infer_instance

/-! ## The three-way merge engine (`wind-core/src/merge.rs`)

`MergeEngine::merge` loads the three manifests, collects the union of
their NodeIDs into a `HashSet`, and classifies every NodeID by the match
at lines 54-113.  The `HashSet` iteration order is arbitrary; it enters
the embedding through the order of the deduplicated id list, and the
conflict list below inherits it.  The loop body never touches the object
store; the function performs no writes at all and, when the conflict
list stays empty, returns `Clean` around a fresh v4 UUID (line 120). -/

/-- `merge.rs` `ConflictInfo`. -/
structure ConflictInfo where
  node_id : String
  path : String
  base_oid : Option String
  ours_oid : Option String
  theirs_oid : Option String
  deriving DecidableEq, Repr

/-- `merge.rs` `MergeResult`. -/
inductive MergeResult where
  | clean (new_changeset_id : String)
  | conflicts (conflicts : List ConflictInfo)
  deriving DecidableEq, Repr

/-- `manifest.entries.values().find(|e| e.node_id == node_id)`: first
entry (in ascending path order) carrying the NodeID. -/
def Manifest.findEntry (m : Manifest) (node_id : String) : Option ManifestEntry :=
  (m.entries.find? fun pe => pe.2.node_id = node_id).map (·.2)

/-- `MergeEngine::find_path_for_node`: path of the first entry carrying
the NodeID. -/
def findPathForNode (m : Manifest) (node_id : String) : Option String :=
  (m.entries.find? fun pe => pe.2.node_id = node_id).map (·.1)

/-- `MergeEngine::collect_all_node_ids`, with the arbitrary `HashSet`
iteration order pinned to first-occurrence order. -/
def collectAllNodeIds (base ours theirs : Manifest) : List String :=
  ((base.entries.map (·.2.node_id)) ++ (ours.entries.map (·.2.node_id)) ++
    (theirs.entries.map (·.2.node_id))).dedup

/-- What one iteration of the merge loop does with a NodeID. -/
inductive NodeOutcome where
  | skip
  | change (c : FileChange)
  | conflict (ci : ConflictInfo)
  deriving DecidableEq, Repr

/-- Path put into a `ConflictInfo`: `find_path_for_node` on ours, else on
theirs, else `unknown_<node_id>`. -/
def conflictPath (ours theirs : Manifest) (node_id : String) : String :=
  ((findPathForNode ours node_id).or (findPathForNode theirs node_id)).getD
    ("unknown_" ++ node_id)

/-- The match at `merge.rs` lines 54-113, arm for arm and in arm order,
on the looked-up OID triple. -/
def mergeNode (base ours theirs : Manifest) (node_id : String) : NodeOutcome :=
  let base_oid := (base.findEntry node_id).map (·.oid)
  let ours_oid := (ours.findEntry node_id).map (·.oid)
  let theirs_oid := (theirs.findEntry node_id).map (·.oid)
  match base_oid, ours_oid, theirs_oid with
  | some b, some o, some t =>
      if o = t then .skip
      else if b = o ∧ b ≠ t then .change (.modified t)
      else if b = t ∧ b ≠ o then .change (.modified o)
      else if o ≠ t then
        .conflict ⟨node_id, conflictPath ours theirs node_id, some b, some o, some t⟩
      else .skip
  | none, some o, none => .change (.added o)
  | none, none, some t => .change (.added t)
  | some _, none, none => .change .deleted
  | none, some o, some t =>
      if o ≠ t then
        .conflict ⟨node_id, conflictPath ours theirs node_id, none, some o, some t⟩
      else .skip
  | some b, some o, none =>
      .conflict ⟨node_id, conflictPath ours theirs node_id, some b, some o, none⟩
  | some b, none, some t =>
      .conflict ⟨node_id, conflictPath ours theirs node_id, some b, none, some t⟩
  | none, none, none => .skip

/-- The conflicts the merge loop accumulates, in id order. -/
def mergeConflicts (base ours theirs : Manifest) : List ConflictInfo :=
  (collectAllNodeIds base ours theirs).filterMap fun n =>
    match mergeNode base ours theirs n with
    | .conflict ci => some ci
    | _ => none

/-- The `merged_changes` map the merge loop accumulates (unused by the
result, mirrored for completeness). -/
def mergeChanges (base ours theirs : Manifest) : List (String × FileChange) :=
  (collectAllNodeIds base ours theirs).filterMap fun n =>
    match mergeNode base ours theirs n with
    | .change c => some (n, c)
    | _ => none

/-- `MergeEngine::merge`, lines 42-122, on already-loaded manifests.  The
second component records every buffer the function writes to the object
store: the function body contains no `storage.write` call, so the list
is empty.  `uuid` is the value drawn by `Uuid::new_v4().to_string()` at
line 120. -/
def merge (base ours theirs : Manifest) (uuid : String) :
    MergeResult × List (List Nat) :=
  let conflicts := mergeConflicts base ours theirs
  if conflicts ≠ [] then (.conflicts conflicts, [])
  else (.clean uuid, [])

/-! ### The decision table of spec section 4.9

Modelled from the spec: rows 1-10 of the table, written from the spec's
wording, to be compared with the code's `mergeNode`. -/

/-- Result column of the spec table. -/
inductive SpecDecision where
  | unchanged
  | takeTheirs (oid : String)
  | takeOurs (oid : String)
  | specAdded (oid : String)
  | specDeleted
  | specConflict
  deriving DecidableEq, Repr

/-- The ten rows of the decision table in spec section 4.9. -/
def specTable (b o t : Option String) : SpecDecision :=
  match b, o, t with
  | _, some ov, some tv =>
      if ov = tv then .unchanged
      else match b with
        | some bv =>
            if bv = ov then .takeTheirs tv
            else if bv = tv then .takeOurs ov
            else .specConflict
        | none => .specConflict
  | none, some ov, none => .specAdded ov
  | none, none, some tv => .specAdded tv
  | some _, none, none => .specDeleted
  | some _, some _, none => .specConflict
  | some _, none, some _ => .specConflict
  | none, none, none => .unchanged

/-- Modelled from the spec: the outcome section 4.9 prescribes for one
NodeID — the table row applied to the looked-up OID triple, a `Modified`
change for take-theirs/take-ours, and for a conflict a `ConflictInfo`
carrying the OID triple and the path "resolved from whichever manifest
contains the NodeID (ours wins, then theirs)". -/
def specOutcome (base ours theirs : Manifest) (node_id : String) : NodeOutcome :=
  let b := (base.findEntry node_id).map (·.oid)
  let o := (ours.findEntry node_id).map (·.oid)
  let t := (theirs.findEntry node_id).map (·.oid)
  match specTable b o t with
  | .unchanged => .skip
  | .takeTheirs oid => .change (.modified oid)
  | .takeOurs oid => .change (.modified oid)
  | .specAdded oid => .change (.added oid)
  | .specDeleted => .change .deleted
  | .specConflict =>
      .conflict ⟨node_id,
        ((findPathForNode ours node_id).or (findPathForNode theirs node_id)).getD
          ("unknown_" ++ node_id),
        b, o, t⟩

/-! ## Working-copy scan (`crates/wind/src/working_copy.rs`)

### Ignore-rule wiring, lines 55-73

The walker is configured once before the walk: `.windignore` is
registered as the custom ignore filename, then exactly one root ignore
file is added — `.gitignore` when it exists, else `.windignore` when
that exists — and a filter drops every path with a `.wind` or `.git`
component. -/

/-- The walker configuration the scan builds. -/
structure IgnoreConfig where
  customIgnoreFilename : String
  addedIgnoreFiles : List String
  deriving DecidableEq, Repr

/-- Lines 55-67: the ignore sources handed to the `WalkBuilder`,
as a function of which root ignore files exist. -/
def scanIgnoreConfig (gitignoreExists windignoreExists : Bool) : IgnoreConfig :=
  { customIgnoreFilename := ".windignore",
    addedIgnoreFiles :=
      if gitignoreExists then [".gitignore"]
      else if windignoreExists then [".windignore"]
      else [] }

/-- Lines 69-73 (`filter_entry`): a visited path is kept only when no
component equals `.wind` or `.git`.  `true` means the entry is skipped. -/
def metaDirSkipped (components : List String) : Bool :=
  components.any fun c => c = ".wind" ∨ c = ".git"

/-! ### Rename detection, lines 119-160

After the walk, `indexed_map` holds the index entries whose paths were
not visited, and `untracked_with_content` the untracked files with their
content OIDs.  Both are `HashMap`s: their arbitrary iteration orders
enter the embedding as the order of the two lists. -/

/-- `index.rs` (crates/wind) `IndexEntry`, with the path as a string
(the valid-UTF-8 fragment of `PathBuf`). -/
structure IndexEntry where
  path : String
  node_id : String
  oid : String
  mtime : Nat
  size : Nat
  permissions : Nat
  deriving DecidableEq, Repr

/-- `working_copy.rs` `FileStatus`. -/
inductive FileStatus where
  | fsAdded
  | fsModified
  | fsDeleted
  | fsRenamed (fromPath : String) (toPath : String)
  | fsUntracked
  deriving DecidableEq, Repr

/-- `working_copy.rs` `FileChange`. -/
structure ScanChange where
  path : String
  status : FileStatus
  node_id : Option String
  deriving DecidableEq, Repr

/-- The source path of a rename change (observer). -/
def renameSource (c : ScanChange) : Option String :=
  match c.status with
  | .fsRenamed fromPath _ => some fromPath
  | _ => none

/-- The target path of a rename change (observer). -/
def renameTarget (c : ScanChange) : Option String :=
  match c.status with
  | .fsRenamed _ toPath => some toPath
  | _ => none

/-- Lines 130-145, inner loop: first untracked file (in iteration
order) whose content OID equals the deleted entry's OID. -/
def findRenameTarget (untracked : List (String × String)) (oid : String) :
    Option String :=
  (untracked.find? fun u => u.2 = oid).map (·.1)

/-- Lines 129-153: pair every unvisited index entry with a rename
target when one matches, otherwise report it deleted.  Returns the
`renamed` list and the `Deleted` changes, each in iteration order. -/
def detectRenames (remaining : List (String × IndexEntry))
    (untracked : List (String × String)) :
    List ScanChange × List ScanChange :=
  let renamed := remaining.filterMap fun pe =>
    (findRenameTarget untracked pe.2.oid).map fun target =>
      { path := target, status := .fsRenamed pe.1 target,
        node_id := some pe.2.node_id }
  let deleted := remaining.filterMap fun pe =>
    match findRenameTarget untracked pe.2.oid with
    | some _ => none
    | none => some { path := pe.1, status := .fsDeleted,
                     node_id := some pe.2.node_id }
  (renamed, deleted)

/-- Lines 155-160: for each rename, drop the `Untracked` change at the
rename target from `changes`, then append the rename. -/
def applyRenames (changes : List ScanChange) (renamed : List ScanChange) :
    List ScanChange :=
  renamed.foldl
    (fun cs r =>
      (match r.status with
        | .fsRenamed _ toPath =>
            cs.filter fun c => ¬ (c.path = toPath ∧ c.status = .fsUntracked)
        | _ => cs) ++ [r])
    changes

/-- The post-walk half of `scan_working_tree` (lines 119-162): rename
detection over the unvisited index entries and the untracked files,
deletions appended to `changes`, renames merged by `applyRenames`. -/
def scanFinish (changes : List ScanChange)
    (remaining : List (String × IndexEntry))
    (untracked : List (String × String)) : List ScanChange :=
  let (renamed, deleted) := detectRenames remaining untracked
  applyRenames (changes ++ deleted) renamed

/-! ## Git exporter tree construction (`wind-bridge/src/exporter.rs`)

`build_git_tree` walks the manifest in ascending path order, skips every
path that starts with `.git` or `.wind`, maps the permission bits to a
Git file mode and inserts the blob under its slash-separated components,
creating intermediate trees with mode `0o040000`.  The git2
`TreeBuilder` is embedded as an association list of named nodes. -/

/-- A node of the Git tree under construction. -/
inductive GitNode where
  | blob (oid : String) (mode : Nat)
  | tree (mode : Nat) (entries : List (String × GitNode))

/-- The name-to-node map of one `TreeBuilder`. -/
abbrev GitTree := List (String × GitNode)

/-- `TreeBuilder::get`. -/
def treeGet (t : GitTree) (name : String) : Option GitNode :=
  (t.find? fun e => e.1 = name).map (·.2)

/-- `TreeBuilder::insert`: replace the binding when the name exists,
append otherwise. -/
def treeInsert : GitTree → String → GitNode → GitTree
  | [], name, node => [(name, node)]
  | e :: rest, name, node =>
      if e.1 = name then (name, node) :: rest else e :: treeInsert rest name node

/-- `str::starts_with` on character sequences (structural, so that the
kernel can evaluate it on literals). -/
def strLeads (pre s : String) : Bool := go pre.data s.data
where
  go : List Char → List Char → Bool
    | c :: cs, d :: ds => c = d && go cs ds
    | [], _ => true
    | _, [] => false

/-- `path.split('/')` of Rust: the pieces between `/` separators, empty
pieces included; never the empty list. -/
def splitSlash (s : String) : List String := go s.data []
where
  go : List Char → List Char → List String
    | [], acc => [String.mk acc.reverse]
    | c :: rest, acc =>
        if c = '/' then String.mk acc.reverse :: go rest [] else go rest (c :: acc)

/-- Lines 162: the export filter — `starts_with(".git") ||
starts_with(".wind")` on the path string. -/
def exportFiltered (path : String) : Bool :=
  strLeads ".git" path || strLeads ".wind" path

/-- Lines 169-173: `entry.permissions & 0o111 != 0` gives `0o100755`,
else `0o100644`. -/
def gitFileMode (permissions : Nat) : Nat :=
  if permissions &&& 0o111 ≠ 0 then 0o100755 else 0o100644

/-- Lines 202-210: the existing subtree reused by `add_nested_path` —
the entries bound at `dirName` when its filemode is `0o040000`, else a
fresh builder. -/
def subOf (t : GitTree) (dirName : String) : GitTree :=
  match treeGet t dirName with
  | some (.tree dmode entries) => if dmode = 0o040000 then entries else []
  | _ => []

/-- `add_nested_path` (lines 186-223) on the split path components:
reuse the existing subtree when the name is bound with filemode
`0o040000`, else start a fresh one; insert the blob at the last
component; rebind each directory with mode `0o040000`. -/
def addNestedPath (t : GitTree) : List String → String → Nat → GitTree
  | [], _, _ => t
  | [name], oid, mode => treeInsert t name (.blob oid mode)
  | dirName :: rest, oid, mode =>
      treeInsert t dirName (.tree 0o040000 (addNestedPath (subOf t dirName) rest oid mode))

/-- `build_git_tree` (lines 156-184): fold the manifest entries in
ascending path order; skip filtered paths; insert each remaining entry's
blob under its slash-split components.  (The blob OID stands for the
entry's content OID: `git_repo.blob(content)` writes the content read
from `entry.oid` and is injective on contents.) -/
def buildGitTree (manifest : Manifest) : GitTree :=
  manifest.entries.foldl
    (fun t pe =>
      if exportFiltered pe.1 then t
      else addNestedPath t (splitSlash pe.1) pe.2.oid (gitFileMode pe.2.permissions))
    []

/-- Lookup of a node in the built tree along path components. -/
def treeLookup (t : GitTree) : List String → Option GitNode
  | [] => none
  | [name] => treeGet t name
  | dirName :: rest =>
      match treeGet t dirName with
      | some (.tree _ entries) => treeLookup entries rest
      | _ => none

/-- The blob (content id and file mode) the built tree holds at a
component path, if any. -/
def blobAt (t : GitTree) (ps : List String) : Option (String × Nat) :=
  match treeLookup t ps with
  | some (.blob oid mode) => some (oid, mode)
  | _ => none

/-- Modelled from the spec: the path-to-(content, mode) map section
4.10 step 3 prescribes for the exported tree — exactly the manifest
entries whose path does not begin with `.git` or `.wind`, each at its
slash-split components, with the execute-bit mode rule. -/
def specExportLookup (entries : List (String × ManifestEntry))
    (ps : List String) : Option (String × Nat) :=
  (entries.find? fun pe =>
      exportFiltered pe.1 = false ∧ splitSlash pe.1 = ps).map
    fun pe => (pe.2.oid, gitFileMode pe.2.permissions)

/-- `xs` is an initial run of `ys`. -/
def StemOf (xs ys : List String) : Prop := ys.take xs.length = xs

instance (xs ys : List String) : Decidable (StemOf xs ys) := by
  unfold StemOf; infer_instance

/-- Well-formedness of a manifest for export: component paths are
non-empty, pairwise distinct, and no entry's component path is an
initial run of another's (a path is never both a file and a
directory).  Every manifest scanned from a filesystem satisfies this. -/
def ExportWF (m : Manifest) : Prop :=
  m.entries.Pairwise fun pe qe =>
    splitSlash pe.1 ≠ splitSlash qe.1 ∧
    ¬ StemOf (splitSlash pe.1) (splitSlash qe.1) ∧
    ¬ StemOf (splitSlash qe.1) (splitSlash pe.1)

instance (m : Manifest) : Decidable (ExportWF m) := by
  unfold ExportWF; infer_instance

/-- Every `tree` node of the built Git tree carries mode `0o040000`. -/
def nodeDirsOk : GitNode → Bool
  | .blob _ _ => true
  | .tree mode entries => mode = 0o040000 && goList entries
where
  goList : List (String × GitNode) → Bool
    | [] => true
    | e :: rest => nodeDirsOk e.2 && goList rest

/-- `nodeDirsOk` over a whole builder. -/
def treeDirsOk (t : GitTree) : Bool :=
  t.all fun e => nodeDirsOk e.2

/-! ## Path index (`wind-core/src/index.rs`)

The `paths` table has `path TEXT PRIMARY KEY`; it is embedded as a map
from the path text to the stored row.  `add` runs `INSERT OR REPLACE`,
`lookup` selects by exact path.  The numeric columns hold the `as i64`
casts of the entry's `u64`/`u32` fields, and `lookup` undoes them with
`as u64` / `as u32`. -/

/-- One row of the `paths` table (SQLite INTEGER columns are `i64`). -/
structure PathRow where
  node_id : String
  oid : String
  mtime : Int
  size : Int
  permissions : Int
  deriving DecidableEq, Repr

/-- The `paths` table: at most one row per path (primary key). -/
def PathsTable := String → Option PathRow

/-- The freshly created table. -/
def PathsTable.empty : PathsTable := fun _ => none

/-- Rust `x as i64` on a `u64` value (wrapping, two's complement). -/
def u64AsI64 (n : Nat) : Int :=
  if n % 2 ^ 64 < 2 ^ 63 then (n % 2 ^ 64 : Int) else (n % 2 ^ 64 : Int) - 2 ^ 64

/-- Rust `x as u64` on an `i64` value. -/
def i64AsU64 (i : Int) : Nat := (i % 2 ^ 64).toNat

/-- Rust `x as u32` on an `i64` value. -/
def i64AsU32 (i : Int) : Nat := (i % 2 ^ 32).toNat

/-- Rust `x as i64` on a `u32` value (always exact). -/
def u32AsI64 (n : Nat) : Int := (n % 2 ^ 32 : Int)

/-- `Index::add`: `INSERT OR REPLACE INTO paths`, binding the entry's
fields with their `as i64` casts.  The entry's path reaches the query
through `to_string_lossy`, the identity on valid-UTF-8 paths. -/
def indexAdd (t : PathsTable) (e : IndexEntry) : PathsTable :=
  fun p =>
    if p = e.path then
      some { node_id := e.node_id, oid := e.oid,
             mtime := u64AsI64 e.mtime, size := u64AsI64 e.size,
             permissions := u32AsI64 e.permissions }
    else t p

/-- `Index::lookup`: select the row whose path equals the argument and
rebuild an `IndexEntry` with the `as u64` / `as u32` casts. -/
def indexLookup (t : PathsTable) (p : String) : Option IndexEntry :=
  (t p).map fun r =>
    { path := p, node_id := r.node_id, oid := r.oid,
      mtime := i64AsU64 r.mtime, size := i64AsU64 r.size,
      permissions := i64AsU32 r.permissions }

/-- The `u64`/`u32` range invariants of an `IndexEntry`'s numeric
fields. -/
def EntryWF (e : IndexEntry) : Prop :=
  e.mtime < 2 ^ 64 ∧ e.size < 2 ^ 64 ∧ e.permissions < 2 ^ 32

instance (e : IndexEntry) : Decidable (EntryWF e) := by
  unfold EntryWF; infer_instance

/-! ## Helper lemmas: hex encoding -/

theorem char_toNat_zero : '0'.toNat = 48 := rfl

theorem char_toNat_nine : '9'.toNat = 57 := rfl

theorem char_toNat_lowa : 'a'.toNat = 97 := rfl

theorem char_toNat_lowf : 'f'.toNat = 102 := rfl

theorem char_toNat_bigA : 'A'.toNat = 65 := rfl

theorem char_toNat_bigF : 'F'.toNat = 70 := rfl

theorem hexVal_of_isHexChar {c : Char} (h : isHexChar c = true) :
    ∃ v, hexVal c = some v ∧ v ≤ 15 := by
  unfold isHexChar at h
  rw [decide_eq_true_iff] at h
  unfold hexVal
  by_cases h1 : '0' ≤ c ∧ c ≤ '9'
  · rw [if_pos h1]
    refine ⟨_, rfl, ?_⟩
    have h2 : c.toNat ≤ 57 := by simpa [Char.le_def] using h1.2
    rw [char_toNat_zero]
    omega
  · by_cases h2 : 'a' ≤ c ∧ c ≤ 'f'
    · rw [if_neg h1, if_pos h2]
      refine ⟨_, rfl, ?_⟩
      have hb : c.toNat ≤ 102 := by simpa [Char.le_def] using h2.2
      have ha : 97 ≤ c.toNat := by simpa [Char.le_def] using h2.1
      rw [char_toNat_lowa]
      omega
    · by_cases h3 : 'A' ≤ c ∧ c ≤ 'F'
      · rw [if_neg h1, if_neg h2, if_pos h3]
        refine ⟨_, rfl, ?_⟩
        have hb : c.toNat ≤ 70 := by simpa [Char.le_def] using h3.2
        have ha : 65 ≤ c.toNat := by simpa [Char.le_def] using h3.1
        rw [char_toNat_bigA]
        omega
      · exact absurd h (by tauto)

theorem isHexChar_ne_plus {c : Char} (h : isHexChar c = true) : c ≠ '+' := by
  intro rfl_eq
  subst rfl_eq
  simp only [isHexChar] at h
  exact absurd h (by decide)

theorem isHexChar_ne_minus {c : Char} (h : isHexChar c = true) : c ≠ '-' := by
  intro rfl_eq
  subst rfl_eq
  simp only [isHexChar] at h
  exact absurd h (by decide)

theorem hexVal_none_of_bad {c : Char} (h : isHexChar c = false) :
    hexVal c = none := by
  unfold isHexChar at h
  rw [decide_eq_false_iff_not] at h
  have h1 : ¬('0' ≤ c ∧ c ≤ '9') := fun ha => h (Or.inl ha)
  have h2 : ¬('a' ≤ c ∧ c ≤ 'f') := fun ha => h (Or.inr (Or.inl ha))
  have h3 : ¬('A' ≤ c ∧ c ≤ 'F') := fun ha => h (Or.inr (Or.inr ha))
  unfold hexVal
  rw [if_neg h1, if_neg h2, if_neg h3]

theorem fromStrRadix16u8_pair {c1 c2 : Char} (h1 : isHexChar c1 = true)
    (h2 : isHexChar c2 = true) :
    fromStrRadix16u8 [c1, c2] =
      some ((hexVal c1).getD 0 * 16 + (hexVal c2).getD 0) := by
  obtain ⟨v1, hv1, hb1⟩ := hexVal_of_isHexChar h1
  obtain ⟨v2, hv2, hb2⟩ := hexVal_of_isHexChar h2
  unfold fromStrRadix16u8
  have hp := isHexChar_ne_plus h1
  have hm := isHexChar_ne_minus h1
  split
  · next heq => exact absurd (List.cons.inj heq).1 hp
  · next heq => exact absurd (List.cons.inj heq).1 hm
  · have hd : digitsOf [c1, c2] = some [v1, v2] := by
      simp [digitsOf, hv1, hv2]
    have ha : accumDigits [v1, v2] = some (v1 * 16 + v2) := by
      simp [accumDigits, List.foldlM]
      rw [if_pos (show v1 ≤ 255 by omega)]
      simp only [Option.some_bind]
      rw [if_pos (show v1 * 16 + v2 ≤ 255 by omega)]
    simp only [Option.some_bind]
    rw [if_neg (by simp : ¬([c1, c2].isEmpty = true)), hd]
    simp only [Option.some_bind]
    rw [ha, hv1, hv2]
    simp only [Option.getD_some]

theorem fromStrRadix16u8_bad {c1 c2 c : Char} (hmem : c = c1 ∨ c = c2)
    (hbad : isHexChar c = false) (hplus : c ≠ '+') :
    fromStrRadix16u8 [c1, c2] = none := by
  unfold fromStrRadix16u8
  split
  · next heq =>
    obtain ⟨e1, e2⟩ := List.cons.inj heq
    rcases hmem with rfl | rfl
    · exact absurd e1 hplus
    · subst e2
      simp only [Option.some_bind]
      rw [if_neg (by simp : ¬([c].isEmpty = true))]
      simp [digitsOf, hexVal_none_of_bad hbad]
  · rfl
  · simp only [Option.some_bind]
    rw [if_neg (by simp : ¬([c1, c2].isEmpty = true))]
    rcases hmem with rfl | rfl
    · simp [digitsOf, hexVal_none_of_bad hbad]
    · cases hv : hexVal c1 with
      | none => simp [digitsOf, hv]
      | some v => simp [digitsOf, hv, hexVal_none_of_bad hbad]

theorem parsePairs_bad {cs : List Char} {c : Char} (hmem : c ∈ cs)
    (hbad : isHexChar c = false) (hplus : c ≠ '+') :
    parsePairs cs = none := by
  induction cs using parsePairs.induct with
  | case1 => cases hmem
  | case2 c1 c2 rest ih =>
    unfold parsePairs
    rcases hmem with _ | ⟨_, hm2⟩
    · rw [fromStrRadix16u8_bad (Or.inl rfl) hbad hplus]
      rfl
    · rcases hm2 with _ | ⟨_, hm3⟩
      · rw [fromStrRadix16u8_bad (Or.inr rfl) hbad hplus]
        rfl
      · rw [ih hm3]
        cases fromStrRadix16u8 [c1, c2] <;> rfl
  | case3 c1 => rfl

theorem parsePairs_hex {cs : List Char} (heven : cs.length % 2 = 0)
    (hhex : ∀ c ∈ cs, isHexChar c = true) :
    parsePairs cs = some (specHexDecode cs) := by
  induction cs using parsePairs.induct with
  | case1 => rfl
  | case2 c1 c2 rest ih =>
    have h1 := hhex c1 (by simp)
    have h2 := hhex c2 (by simp)
    have he : rest.length % 2 = 0 := by
      simp only [List.length_cons] at heven
      omega
    unfold parsePairs
    rw [fromStrRadix16u8_pair h1 h2]
    simp only [Option.some_bind]
    rw [ih he (fun c hc => hhex c (by simp [hc]))]
    rfl
  | case3 c1 => simp at heven

theorem specHexDecode_length {cs : List Char} :
    (specHexDecode cs).length = cs.length / 2 := by
  induction cs using parsePairs.induct with
  | case1 => rfl
  | case2 c1 c2 rest ih =>
    unfold specHexDecode
    simp only [List.length_cons, ih]
    omega
  | case3 c1 => simp [specHexDecode]

theorem hexVal_hexChar : ∀ n < 16, hexVal (hexChar n) = some n := by decide

theorem isHexChar_hexChar : ∀ n < 16, isHexChar (hexChar n) = true := by decide

theorem flatMap_hexByte_length (bytes : List Nat) :
    (bytes.flatMap hexByte).length = 2 * bytes.length := by
  induction bytes with
  | nil => rfl
  | cons b rest ih =>
    simp only [List.flatMap_cons, List.length_append, ih, hexByte,
      List.length_cons, List.length_nil]
    omega

theorem parsePairs_flatMap {bytes : List Nat} (h : ∀ b ∈ bytes, b < 256) :
    parsePairs (bytes.flatMap hexByte) = some bytes := by
  induction bytes with
  | nil => rfl
  | cons b rest ih =>
    have hb : b < 256 := h b (by simp)
    have hd1 : b / 16 % 16 < 16 := Nat.mod_lt _ (by omega)
    have hd2 : b % 16 < 16 := Nat.mod_lt _ (by omega)
    simp only [List.flatMap_cons, hexByte, List.cons_append, List.nil_append]
    unfold parsePairs
    rw [fromStrRadix16u8_pair (isHexChar_hexChar _ hd1) (isHexChar_hexChar _ hd2),
      ih (fun x hx => h x (by simp [hx]))]
    rw [hexVal_hexChar _ hd1, hexVal_hexChar _ hd2]
    simp only [Option.getD_some, Option.some_bind, Option.map_some',
      Option.some.injEq, List.cons.injEq]
    exact ⟨by omega, trivial⟩

theorem fromHex_toHex {bytes : List Nat} (h : ValidBytes bytes) :
    fromHex (toHex bytes) = some bytes := by
  unfold fromHex toHex
  have hlen : (String.mk (bytes.flatMap hexByte)).data = bytes.flatMap hexByte := rfl
  rw [hlen, flatMap_hexByte_length, h.1]
  rw [if_neg (by omega)]
  exact parsePairs_flatMap h.2

theorem toHex_isOidHex {bytes : List Nat} (h : ValidBytes bytes) :
    IsOidHex (toHex bytes) := by
  constructor
  · show (String.mk (bytes.flatMap hexByte)).data.length = 64
    have : (String.mk (bytes.flatMap hexByte)).data = bytes.flatMap hexByte := rfl
    rw [this, flatMap_hexByte_length, h.1]
  · intro c hc
    have hc' : c ∈ bytes.flatMap hexByte := hc
    rw [List.mem_flatMap] at hc'
    obtain ⟨b, _, hcb⟩ := hc'
    unfold hexByte at hcb
    have h1 : b / 16 % 16 < 16 := Nat.mod_lt _ (by omega)
    have h2 : b % 16 < 16 := Nat.mod_lt _ (by omega)
    simp only [List.mem_cons, List.not_mem_nil, or_false] at hcb
    rcases hcb with rfl | rfl
    · exact isHexChar_hexChar _ h1
    · exact isHexChar_hexChar _ h2

theorem toHex_inj {a b : List Nat} (ha : ValidBytes a) (hb : ValidBytes b)
    (h : toHex a = toHex b) : a = b := by
  have h1 := fromHex_toHex ha
  have h2 := fromHex_toHex hb
  rw [h] at h1
  rw [h1] at h2
  exact Option.some.inj h2

/-! ## C9: `Oid::from_hex` input validation -/

/-- C9 (counterexample): the 64-character string of thirty-two `+f`
groups contains the non-hexadecimal character `+` yet `from_hex`
accepts it (a leading `+` in a group is tolerated by
`u8::from_str_radix`), decoding every group to 15 — contradicting the
claim that every input containing a non-hexadecimal character is
rejected. -/
theorem fromHex_accepts_plus :
    fromHex "+f+f+f+f+f+f+f+f+f+f+f+f+f+f+f+f+f+f+f+f+f+f+f+f+f+f+f+f+f+f+f+f" =
      some (List.replicate 32 15) ∧
    '+' ∈ ("+f+f+f+f+f+f+f+f+f+f+f+f+f+f+f+f+f+f+f+f+f+f+f+f+f+f+f+f+f+f+f+f" : String).data ∧
    isHexChar '+' = false := by
  refine ⟨by decide, by decide, by decide⟩

/-- C9 (amended): `from_hex` rejects every input whose length differs
from 64 and every input containing a character that is neither a
hexadecimal digit nor `+`; every 64-character hexadecimal string is
accepted and parses to its 32 decoded bytes. -/
theorem fromHex_spec (s : String) :
    (s.data.length ≠ 64 → fromHex s = none) ∧
    ((∃ c ∈ s.data, isHexChar c = false ∧ c ≠ '+') → fromHex s = none) ∧
    (s.data.length = 64 → (∀ c ∈ s.data, isHexChar c = true) →
      fromHex s = some (specHexDecode s.data) ∧
      (specHexDecode s.data).length = 32) := by
  refine ⟨fun h => ?_, fun h => ?_, fun hlen hhex => ⟨?_, ?_⟩⟩
  · unfold fromHex
    rw [if_pos h]
  · unfold fromHex
    by_cases hlen : s.data.length ≠ 64
    · rw [if_pos hlen]
    · rw [if_neg hlen]
      obtain ⟨c, hc, hbad, hplus⟩ := h
      exact parsePairs_bad hc hbad hplus
  · unfold fromHex
    rw [if_neg (by omega)]
    exact parsePairs_hex (by omega) hhex
  · rw [specHexDecode_length, hlen]

/-- C9 (witness): concrete 63-, 64- and 65-character inputs. -/
theorem fromHex_spec_witness :
    fromHex (String.mk (List.replicate 63 'a')) = none ∧
    fromHex (String.mk (List.replicate 65 'a')) = none ∧
    fromHex (String.mk (List.replicate 64 'a')) =
      some (specHexDecode (List.replicate 64 'a')) := by
  refine ⟨(fromHex_spec _).1 (by decide), (fromHex_spec _).1 (by decide),
    ((fromHex_spec _).2.2 (by decide) (by decide)).1⟩

/-! ## C10: `Index::add` is an upsert keyed on path -/

theorem i64AsU64_u64AsI64 {n : Nat} (h : n < 2 ^ 64) :
    i64AsU64 (u64AsI64 n) = n := by
  unfold i64AsU64 u64AsI64
  split_ifs with h1 <;> omega

theorem i64AsU32_u32AsI64 {n : Nat} (h : n < 2 ^ 32) :
    i64AsU32 (u32AsI64 n) = n := by
  unfold i64AsU32 u32AsI64
  omega

/-- C10: `Index::add` upserts on the entry's path — adding then looking
up the same path returns an entry equal to the one added (the numeric
fields surviving their `as i64` round-trips), and a second `add` with
the same path replaces the first entry rather than failing or keeping
both. -/
theorem indexAdd_upsert (t : PathsTable) (e e2 : IndexEntry)
    (hwf : EntryWF e) (hwf2 : EntryWF e2) (hsame : e2.path = e.path) :
    indexLookup (indexAdd t e) e.path = some e ∧
    indexLookup (indexAdd (indexAdd t e) e2) e.path = some e2 := by
  obtain ⟨hm, hs, hp⟩ := hwf
  obtain ⟨hm2, hs2, hp2⟩ := hwf2
  constructor
  · unfold indexLookup indexAdd
    rw [if_pos rfl]
    simp only [Option.map_some']
    rw [i64AsU64_u64AsI64 hm, i64AsU64_u64AsI64 hs, i64AsU32_u32AsI64 hp]
  · unfold indexLookup indexAdd
    rw [hsame, if_pos rfl]
    simp only [Option.map_some']
    rw [i64AsU64_u64AsI64 hm2, i64AsU64_u64AsI64 hs2, i64AsU32_u32AsI64 hp2,
      ← hsame]

/-- C10 (witness): a concrete add / re-add at the path `src/main.rs`. -/
theorem indexAdd_upsert_witness :
    EntryWF ⟨"src/main.rs", "n1", "o1", 5, 6, 420⟩ ∧
    EntryWF ⟨"src/main.rs", "n2", "o2", 7, 8, 493⟩ ∧
    indexLookup (indexAdd PathsTable.empty ⟨"src/main.rs", "n1", "o1", 5, 6, 420⟩)
      "src/main.rs" = some ⟨"src/main.rs", "n1", "o1", 5, 6, 420⟩ ∧
    indexLookup
      (indexAdd (indexAdd PathsTable.empty ⟨"src/main.rs", "n1", "o1", 5, 6, 420⟩)
        ⟨"src/main.rs", "n2", "o2", 7, 8, 493⟩)
      "src/main.rs" = some ⟨"src/main.rs", "n2", "o2", 7, 8, 493⟩ := by
  refine ⟨by decide, by decide, ?_, ?_⟩
  · exact (indexAdd_upsert PathsTable.empty
      ⟨"src/main.rs", "n1", "o1", 5, 6, 420⟩ ⟨"src/main.rs", "n2", "o2", 7, 8, 493⟩
      (by decide) (by decide) rfl).1
  · exact (indexAdd_upsert PathsTable.empty
      ⟨"src/main.rs", "n1", "o1", 5, 6, 420⟩ ⟨"src/main.rs", "n2", "o2", 7, 8, 493⟩
      (by decide) (by decide) rfl).2

/-! ## C5: changeset ids are fresh UUIDs, not content OIDs -/

/-- C5 (counterexample): a changeset built by `Changeset::new` with the
(valid v4) UUID draw `00000000-0000-4000-8000-000000000000` has that
36-character string as its `id`, which is not a 64-hex object-store OID
string — so the `id` field does not equal the object-store OID of the
serialised changeset (every such OID renders as 64 hex characters, see
`toHex_isOidHex`). -/
theorem changeset_id_not_oid :
    ¬ IsOidHex (Changeset.new [] [] "first" "alice" "mroot"
        "00000000-0000-4000-8000-000000000000" 0).id := by
  decide

/-- C5 (amended): `Changeset::new` stores the freshly drawn v4 UUID
string as `id` verbatim; since a UUID rendering has 36 characters, the
`id` is never an object-store OID string (which `toHex_isOidHex` shows
are exactly 64 hex characters). -/
theorem changeset_id_is_uuid (parents : List String)
    (changes : List (String × FileChange))
    (msg author root uuid : String) (now : Int)
    (huuid : IsUuidString uuid) :
    (Changeset.new parents changes msg author root uuid now).id = uuid ∧
    ¬ IsOidHex (Changeset.new parents changes msg author root uuid now).id := by
  refine ⟨rfl, fun h => ?_⟩
  have h1 : uuid.data.length = 64 := h.1
  have h2 : uuid.data.length = 36 := huuid.1
  omega

/-- C5 (witness): the amended statement at a concrete UUID draw. -/
theorem changeset_id_is_uuid_witness :
    IsUuidString "00000000-0000-4000-8000-000000000000" ∧
    (Changeset.new [] [] "first" "alice" "mroot"
        "00000000-0000-4000-8000-000000000000" 0).id =
      "00000000-0000-4000-8000-000000000000" := by
  exact ⟨by decide, (changeset_id_is_uuid [] [] "first" "alice" "mroot"
    "00000000-0000-4000-8000-000000000000" 0 (by decide)).1⟩

/-! ## C8: ignore-rule selection and unconditional metadata skips -/

/-- C8 (counterexample): with both a `.gitignore` and a `.windignore`
present at the root, the scan adds `.gitignore` to the walker — the
claim that `.gitignore` is used only when `.windignore` is absent fails
(the root ignore-file precedence in the code is the reverse of the
spec's). -/
theorem ignore_rules_both_present :
    (scanIgnoreConfig true true).addedIgnoreFiles = [".gitignore"] ∧
    ".windignore" ∉ (scanIgnoreConfig true true).addedIgnoreFiles := by
  decide

/-- C8 (amended): `.windignore` is always honoured as the walk's custom
ignore filename; the root `.gitignore` is additionally used whenever it
exists, and the root `.windignore` is added explicitly only when
`.gitignore` is absent; paths containing a `.wind` or `.git` component
are skipped unconditionally, regardless of ignore files. -/
theorem ignore_rules_spec (gitignoreExists windignoreExists : Bool) :
    (scanIgnoreConfig gitignoreExists windignoreExists).customIgnoreFilename =
      ".windignore" ∧
    (gitignoreExists = true →
      (scanIgnoreConfig gitignoreExists windignoreExists).addedIgnoreFiles =
        [".gitignore"]) ∧
    (gitignoreExists = false → windignoreExists = true →
      (scanIgnoreConfig gitignoreExists windignoreExists).addedIgnoreFiles =
        [".windignore"]) ∧
    (gitignoreExists = false → windignoreExists = false →
      (scanIgnoreConfig gitignoreExists windignoreExists).addedIgnoreFiles = []) ∧
    (∀ components : List String,
      metaDirSkipped components = true ↔
        ".wind" ∈ components ∨ ".git" ∈ components) := by
  refine ⟨rfl, fun hg => ?_, fun hg hw => ?_, fun hg hw => ?_, fun components => ?_⟩
  · subst hg; rfl
  · subst hg; subst hw; rfl
  · subst hg; subst hw; rfl
  · unfold metaDirSkipped
    rw [List.any_eq_true]
    constructor
    · rintro ⟨c, hc, hd⟩
      rw [decide_eq_true_iff] at hd
      rcases hd with rfl | rfl
      · exact Or.inl hc
      · exact Or.inr hc
    · rintro (hc | hc)
      · exact ⟨_, hc, by simp⟩
      · exact ⟨_, hc, by simp⟩

/-- C8 (witness): both files present, and a path under `.git` skipped
while a source path is not. -/
theorem ignore_rules_spec_witness :
    (scanIgnoreConfig true true).addedIgnoreFiles = [".gitignore"] ∧
    metaDirSkipped [".git", "config"] = true ∧
    metaDirSkipped ["src", "main.rs"] = false := by
  refine ⟨(ignore_rules_spec true true).2.1 rfl, ?_, ?_⟩
  · exact ((ignore_rules_spec true true).2.2.2.2 [".git", "config"]).2 (by decide)
  · decide

/-! ## C6: rename detection -/

/-- C6 (counterexample): two unvisited index entries `a` and `b` share
the content OID `X`, and a single untracked file `c` has that OID.  The
scan pairs **both** deleted entries with `c`, reporting two `Renamed`
events with the same target — the untracked pool is never shrunk, so an
untracked file is not used as the target of at most one rename, and no
path-edit-distance or lexicographic tie-break exists in the code. -/
theorem rename_target_reused :
    scanFinish [⟨"c", .fsUntracked, some "nu"⟩]
        [("a", ⟨"a", "n1", "X", 0, 0, 0⟩), ("b", ⟨"b", "n2", "X", 0, 0, 0⟩)]
        [("c", "X")] =
      [⟨"c", .fsRenamed "a" "c", some "n1"⟩,
       ⟨"c", .fsRenamed "b" "c", some "n2"⟩] ∧
    ((scanFinish [⟨"c", .fsUntracked, some "nu"⟩]
        [("a", ⟨"a", "n1", "X", 0, 0, 0⟩), ("b", ⟨"b", "n2", "X", 0, 0, 0⟩)]
        [("c", "X")]).filterMap renameTarget).count "c" = 2 := by
  decide

theorem renames_deletes_partition (remaining : List (String × IndexEntry))
    (untracked : List (String × String)) :
    (remaining.filterMap fun pe =>
      (findRenameTarget untracked pe.2.oid).map fun target =>
        ScanChange.mk target (.fsRenamed pe.1 target) (some pe.2.node_id)).length +
    (remaining.filterMap fun pe =>
      match findRenameTarget untracked pe.2.oid with
      | some _ => none
      | none => some (ScanChange.mk pe.1 .fsDeleted (some pe.2.node_id))).length =
    remaining.length := by
  induction remaining with
  | nil => rfl
  | cons pe rest ih =>
    simp only [List.filterMap_cons]
    cases h : findRenameTarget untracked pe.2.oid with
    | none =>
      simp only [h, Option.map_none', List.length_cons]
      omega
    | some target =>
      simp only [h, Option.map_some', List.length_cons]
      omega

theorem filterMap_sub_map {α β : Type} (l : List α) (h : α → Option β) (k : α → β)
    (hpt : ∀ a ∈ l, h a = none ∨ h a = some (k a)) :
    (l.filterMap h).Sublist (l.map k) := by
  induction l with
  | nil => simp
  | cons a rest ih =>
    have hrest := ih fun x hx => hpt x (by simp [hx])
    rcases hpt a (by simp) with ha | ha
    · rw [List.filterMap_cons, ha, List.map_cons]
      exact hrest.cons _
    · rw [List.filterMap_cons, ha, List.map_cons]
      exact hrest.cons₂ _

/-- C6 (amended): each unvisited index entry yields exactly one report —
a `Renamed` to the first untracked file (in hash-map iteration order)
whose content OID matches, when one exists, else a `Deleted` — so each
deleted entry is the source of at most one rename (sources are distinct
when the index paths are); but the untracked pool is not consumed, no
path-edit-distance or lexicographic tie-break is applied, and the chosen
target depends on the hash-map iteration order, so an untracked file can
be the target of several renames and the pairing is deterministic only
up to that order. -/
theorem detectRenames_spec (remaining : List (String × IndexEntry))
    (untracked : List (String × String))
    (hnodup : (remaining.map (·.1)).Nodup) :
    (detectRenames remaining untracked).1.length +
      (detectRenames remaining untracked).2.length = remaining.length ∧
    (∀ pe ∈ remaining, ∀ target,
      findRenameTarget untracked pe.2.oid = some target →
      ScanChange.mk target (.fsRenamed pe.1 target) (some pe.2.node_id) ∈
        (detectRenames remaining untracked).1) ∧
    (∀ pe ∈ remaining, findRenameTarget untracked pe.2.oid = none →
      ScanChange.mk pe.1 .fsDeleted (some pe.2.node_id) ∈
        (detectRenames remaining untracked).2) ∧
    ((detectRenames remaining untracked).1.filterMap renameSource).Nodup := by
  refine ⟨?_, ?_, ?_, ?_⟩
  · simp only [detectRenames]
    exact renames_deletes_partition remaining untracked
  · intro pe hpe target h
    unfold detectRenames
    rw [List.mem_filterMap]
    exact ⟨pe, hpe, by rw [h]; rfl⟩
  · intro pe hpe h
    unfold detectRenames
    rw [List.mem_filterMap]
    exact ⟨pe, hpe, by rw [h]⟩
  · unfold detectRenames
    rw [List.filterMap_filterMap]
    refine List.Nodup.sublist (filterMap_sub_map _ _ (·.1) fun pe _ => ?_) hnodup
    cases h : findRenameTarget untracked pe.2.oid with
    | none => exact Or.inl rfl
    | some target => exact Or.inr rfl

/-- C6 (witness): a concrete scan state — one deleted entry matched to
the single untracked file with equal OID, one unmatched entry reported
deleted. -/
theorem detectRenames_spec_witness :
    ([("a", (⟨"a", "n1", "X", 0, 0, 0⟩ : IndexEntry)),
      ("b", ⟨"b", "n2", "Y", 0, 0, 0⟩)].map (·.1)).Nodup ∧
    ScanChange.mk "c" (.fsRenamed "a" "c") (some "n1") ∈
      (detectRenames [("a", ⟨"a", "n1", "X", 0, 0, 0⟩),
        ("b", ⟨"b", "n2", "Y", 0, 0, 0⟩)] [("c", "X")]).1 ∧
    ScanChange.mk "b" .fsDeleted (some "n2") ∈
      (detectRenames [("a", ⟨"a", "n1", "X", 0, 0, 0⟩),
        ("b", ⟨"b", "n2", "Y", 0, 0, 0⟩)] [("c", "X")]).2 := by
  refine ⟨by decide, ?_, ?_⟩
  · exact (detectRenames_spec _ [("c", "X")] (by decide)).2.1
      ("a", ⟨"a", "n1", "X", 0, 0, 0⟩) (by decide) "c" (by decide)
  · exact (detectRenames_spec _ [("c", "X")] (by decide)).2.2.1
      ("b", ⟨"b", "n2", "Y", 0, 0, 0⟩) (by decide) (by decide)

/-! ## C1: the three-way merge decision table -/

theorem mergeNode_eq_specOutcome (base ours theirs : Manifest) (n : String) :
    mergeNode base ours theirs n = specOutcome base ours theirs n := by
  unfold mergeNode specOutcome specTable
  cases hb : (base.findEntry n).map (·.oid) with
  | none =>
    cases ho : (ours.findEntry n).map (·.oid) with
    | none =>
      cases ht : (theirs.findEntry n).map (·.oid) with
      | none => rfl
      | some t => rfl
    | some o =>
      cases ht : (theirs.findEntry n).map (·.oid) with
      | none => rfl
      | some t =>
        by_cases hot : o = t
        · subst hot
          simp [conflictPath]
        · simp [hot, conflictPath]
  | some b =>
    cases ho : (ours.findEntry n).map (·.oid) with
    | none =>
      cases ht : (theirs.findEntry n).map (·.oid) with
      | none => rfl
      | some t => simp [conflictPath]
    | some o =>
      cases ht : (theirs.findEntry n).map (·.oid) with
      | none => simp [conflictPath]
      | some t =>
        by_cases hot : o = t
        · subst hot
          simp
        · by_cases hbo : b = o
          · subst hbo
            simp [hot, Ne.symm hot]
          · by_cases hbt : b = t
            · subst hbt
              simp [hot, hbo, Ne.symm hbo, conflictPath]
            · simp [hot, hbo, hbt, conflictPath]

theorem collectAllNodeIds_mem (base ours theirs : Manifest) (m : String) :
    m ∈ collectAllNodeIds base ours theirs ↔
      ((∃ pe ∈ base.entries, pe.2.node_id = m) ∨
       (∃ pe ∈ ours.entries, pe.2.node_id = m) ∨
       (∃ pe ∈ theirs.entries, pe.2.node_id = m)) := by
  unfold collectAllNodeIds
  simp [List.mem_dedup, List.mem_append, List.mem_map]

theorem mergeNode_conflict_info (base ours theirs : Manifest) (n : String)
    (ci : ConflictInfo) (h : mergeNode base ours theirs n = .conflict ci) :
    ci.node_id = n ∧
    ci.base_oid = (base.findEntry n).map (·.oid) ∧
    ci.ours_oid = (ours.findEntry n).map (·.oid) ∧
    ci.theirs_oid = (theirs.findEntry n).map (·.oid) ∧
    (∀ p, findPathForNode ours n = some p → ci.path = p) ∧
    (findPathForNode ours n = none →
      ∀ p, findPathForNode theirs n = some p → ci.path = p) := by
  unfold mergeNode at h
  have hpath : ∀ p, findPathForNode ours n = some p → conflictPath ours theirs n = p := by
    intro p hp
    unfold conflictPath
    rw [hp]
    rfl
  have hpath2 : findPathForNode ours n = none →
      ∀ p, findPathForNode theirs n = some p → conflictPath ours theirs n = p := by
    intro hn p hp
    unfold conflictPath
    rw [hn, hp]
    rfl
  cases hb : (base.findEntry n).map (·.oid) with
  | none =>
    cases ho : (ours.findEntry n).map (·.oid) with
    | none =>
      cases ht : (theirs.findEntry n).map (·.oid) with
      | none => simp only [hb, ho, ht] at h; cases h
      | some t => simp only [hb, ho, ht] at h; cases h
    | some o =>
      cases ht : (theirs.findEntry n).map (·.oid) with
      | none => simp only [hb, ho, ht] at h; cases h
      | some t =>
        simp only [hb, ho, ht] at h
        by_cases hot : o = t
        · rw [if_neg (by simp [hot])] at h
          cases h
        · rw [if_pos hot] at h
          cases h
          exact ⟨rfl, rfl, rfl, rfl, hpath, hpath2⟩
  | some b =>
    cases ho : (ours.findEntry n).map (·.oid) with
    | none =>
      cases ht : (theirs.findEntry n).map (·.oid) with
      | none => simp only [hb, ho, ht] at h; cases h
      | some t =>
        simp only [hb, ho, ht] at h
        cases h
        exact ⟨rfl, rfl, rfl, rfl, hpath, hpath2⟩
    | some o =>
      cases ht : (theirs.findEntry n).map (·.oid) with
      | none =>
        simp only [hb, ho, ht] at h
        cases h
        exact ⟨rfl, rfl, rfl, rfl, hpath, hpath2⟩
      | some t =>
        simp only [hb, ho, ht] at h
        by_cases hot : o = t
        · rw [if_pos hot] at h
          cases h
        · rw [if_neg hot] at h
          by_cases hbo : b = o ∧ b ≠ t
          · rw [if_pos hbo] at h
            cases h
          · rw [if_neg hbo] at h
            by_cases hbt : b = t ∧ b ≠ o
            · rw [if_pos hbt] at h
              cases h
            · rw [if_neg hbt, if_pos hot] at h
              cases h
              exact ⟨rfl, rfl, rfl, rfl, hpath, hpath2⟩

/-- C1: for every NodeID, the merge loop's classification agrees with
the decision table of spec section 4.9 applied to the looked-up OID
triple (`specOutcome`, written from the spec's table); the loop visits
exactly the union of the three manifests' NodeIDs; and every reported
`ConflictInfo` carries the OID triple and a path resolved from ours'
manifest when it contains the NodeID, else from theirs'. -/
theorem merge_decision_table (base ours theirs : Manifest) (n : String) :
    mergeNode base ours theirs n = specOutcome base ours theirs n ∧
    (∀ m : String, m ∈ collectAllNodeIds base ours theirs ↔
      ((∃ pe ∈ base.entries, pe.2.node_id = m) ∨
       (∃ pe ∈ ours.entries, pe.2.node_id = m) ∨
       (∃ pe ∈ theirs.entries, pe.2.node_id = m))) ∧
    (∀ ci, mergeNode base ours theirs n = .conflict ci →
      ci.node_id = n ∧
      ci.base_oid = (base.findEntry n).map (·.oid) ∧
      ci.ours_oid = (ours.findEntry n).map (·.oid) ∧
      ci.theirs_oid = (theirs.findEntry n).map (·.oid) ∧
      (∀ p, findPathForNode ours n = some p → ci.path = p) ∧
      (findPathForNode ours n = none →
        ∀ p, findPathForNode theirs n = some p → ci.path = p)) :=
  ⟨mergeNode_eq_specOutcome base ours theirs n,
   collectAllNodeIds_mem base ours theirs,
   fun ci h => mergeNode_conflict_info base ours theirs n ci h⟩

/-- C1 (witness): a divergent edit of the node `n1` (base `base`, ours
`A`, theirs `B`) is classified as a conflict whose path comes from ours'
manifest. -/
theorem merge_decision_table_witness :
    mergeNode ⟨[("f", ⟨"n1", "base", 420⟩)]⟩ ⟨[("f", ⟨"n1", "A", 420⟩)]⟩
        ⟨[("f", ⟨"n1", "B", 420⟩)]⟩ "n1" =
      specOutcome ⟨[("f", ⟨"n1", "base", 420⟩)]⟩ ⟨[("f", ⟨"n1", "A", 420⟩)]⟩
        ⟨[("f", ⟨"n1", "B", 420⟩)]⟩ "n1" ∧
    ("n1" ∈ collectAllNodeIds ⟨[("f", ⟨"n1", "base", 420⟩)]⟩
        ⟨[("f", ⟨"n1", "A", 420⟩)]⟩ ⟨[("f", ⟨"n1", "B", 420⟩)]⟩ ↔
      ((∃ pe ∈ [("f", (⟨"n1", "base", 420⟩ : ManifestEntry))], pe.2.node_id = "n1") ∨
       (∃ pe ∈ [("f", (⟨"n1", "A", 420⟩ : ManifestEntry))], pe.2.node_id = "n1") ∨
       (∃ pe ∈ [("f", (⟨"n1", "B", 420⟩ : ManifestEntry))], pe.2.node_id = "n1"))) ∧
    (⟨"n1", "f", some "base", some "A", some "B"⟩ : ConflictInfo).path = "f" := by
  refine ⟨(merge_decision_table _ _ _ "n1").1, (merge_decision_table _ _ _ "n1").2.1 "n1", ?_⟩
  exact ((merge_decision_table ⟨[("f", ⟨"n1", "base", 420⟩)]⟩ ⟨[("f", ⟨"n1", "A", 420⟩)]⟩
      ⟨[("f", ⟨"n1", "B", 420⟩)]⟩ "n1").2.2 ⟨"n1", "f", some "base", some "A", some "B"⟩
      (by decide)).2.2.2.2.1 "f" (by decide)

/-! ## C2: a conflict-free merge returns Clean but materialises nothing -/

/-- C2 (counterexample): a merge of identical ours and theirs returns
`Clean` around the fresh UUID, with an empty write set — no merged
manifest or changeset is materialised (the function body performs no
object-store write), so no manifest equal to ours exists in the result,
contrary to the claim's materialisation clause. -/
theorem merge_clean_writes_nothing :
    merge ⟨[("f", ⟨"n1", "base", 420⟩)]⟩ ⟨[("f", ⟨"n1", "A", 420⟩)]⟩
        ⟨[("f", ⟨"n1", "A", 420⟩)]⟩ "4f2c0e1a-0000-4000-8000-000000000000" =
      (.clean "4f2c0e1a-0000-4000-8000-000000000000", []) := by
  decide

/-- C2 (amended): whenever the merge loop records no conflict, `merge`
returns `Clean` carrying the freshly drawn UUID and writes nothing to
the object store; in particular, for `ours = theirs` every node is
classified without conflict, so the merge yields `Clean` — but no merged
manifest or changeset is materialised. -/
theorem merge_clean_spec (base ours theirs : Manifest) (uuid : String) :
    (mergeConflicts base ours theirs = [] →
      merge base ours theirs uuid = (.clean uuid, [])) ∧
    (ours = theirs →
      mergeConflicts base ours theirs = [] ∧
      merge base ours theirs uuid = (.clean uuid, [])) ∧
    (merge base ours theirs uuid).2 = [] := by
  have hwrites : (merge base ours theirs uuid).2 = [] := by
    simp only [merge]
    split <;> rfl
  have hclean : mergeConflicts base ours theirs = [] →
      merge base ours theirs uuid = (.clean uuid, []) := by
    intro h
    unfold merge
    rw [if_neg (by simp [h])]
  refine ⟨hclean, fun heq => ?_, hwrites⟩
  subst heq
  have hnoconf : mergeConflicts base ours ours = [] := by
    unfold mergeConflicts
    rw [List.filterMap_eq_nil_iff]
    intro n _
    unfold mergeNode
    cases hb : (base.findEntry n).map (·.oid) with
    | none =>
      cases ho : (ours.findEntry n).map (·.oid) with
      | none => rfl
      | some o => simp
    | some b =>
      cases ho : (ours.findEntry n).map (·.oid) with
      | none => rfl
      | some o => simp
  exact ⟨hnoconf, hclean hnoconf⟩

/-- C2 (witness): the amended statement at a concrete triple with
`ours = theirs`. -/
theorem merge_clean_spec_witness :
    mergeConflicts ⟨[("g", ⟨"n2", "base2", 420⟩)]⟩ ⟨[("g", ⟨"n2", "C", 420⟩)]⟩
        ⟨[("g", ⟨"n2", "C", 420⟩)]⟩ = [] ∧
    merge ⟨[("g", ⟨"n2", "base2", 420⟩)]⟩ ⟨[("g", ⟨"n2", "C", 420⟩)]⟩
        ⟨[("g", ⟨"n2", "C", 420⟩)]⟩ "m1" = (.clean "m1", []) :=
  (merge_clean_spec ⟨[("g", ⟨"n2", "base2", 420⟩)]⟩ ⟨[("g", ⟨"n2", "C", 420⟩)]⟩
    ⟨[("g", ⟨"n2", "C", 420⟩)]⟩ "m1").2.1 rfl

/-! ## C3: write / read round-trip on the synchronous store -/

theorem string_take_append_drop (s : String) (n : Nat) :
    s.take n ++ s.drop n = s := by
  apply String.ext
  show (s.take n).data ++ (s.drop n).data = s.data
  rw [String.data_take, String.data_drop, List.take_append_drop]

theorem fanoutPath_inj {p q : String} (h : fanoutPath p = fanoutPath q) :
    p = q := by
  have h1 : p.take 2 = q.take 2 := congrArg Prod.fst h
  have h2 : p.drop 2 = q.drop 2 := congrArg Prod.snd h
  rw [← string_take_append_drop p 2, ← string_take_append_drop q 2, h1, h2]

theorem storeConsistent_empty (M : StoreModel) : StoreConsistent M Fs.empty := by
  intro key c h
  cases h

theorem storeWrite_consistent (M : StoreModel) (fs : Fs) (B : List Nat)
    (hcons : StoreConsistent M fs) :
    StoreConsistent M (storeWrite M fs B).2 := by
  unfold storeWrite
  by_cases hex : storeExists fs (toHex (M.hash B)) = true
  · simpa [hex] using hcons
  · simp only [hex]
    rw [if_neg (by simp [hex])]
    intro key c h
    have h2 : (if key = fanoutPath (toHex (M.hash B)) then some (M.compress B)
        else fs key) = some c := h
    by_cases hk : key = fanoutPath (toHex (M.hash B))
    · rw [if_pos hk] at h2
      exact ⟨B, hk, (Option.some.inj h2).symm⟩
    · rw [if_neg hk] at h2
      exact hcons key c h2

/-- C3: writing a buffer `B` through the synchronous store facet and
reading the returned OID back yields exactly `B`.  Hypotheses: the
digest function produces well-formed 32-byte OIDs and has no collision
at `B` (true of BLAKE3 up to collision-freedom), zstd decompression
undoes compression, and every file already in the store directory is
the compressed form of a buffer filed under its own OID path (which
`storeConsistent_empty` and `storeWrite_consistent` show is an
invariant of store usage). -/
theorem store_roundtrip (M : StoreModel) (fs : Fs) (B : List Nat)
    (hv : HashValid M) (hc : CompressionFaithful M)
    (hcons : StoreConsistent M fs)
    (hnc : ∀ d, M.hash d = M.hash B → d = B) :
    storeRead M (storeWrite M fs B).2 (storeWrite M fs B).1 = some B := by
  have hvB := hv B
  have hfrom : fromHex (toHex (M.hash B)) = some (M.hash B) := fromHex_toHex hvB
  unfold storeWrite
  by_cases hex : storeExists fs (toHex (M.hash B)) = true
  · rw [if_pos hex]
    unfold storeExists at hex
    rw [hfrom] at hex
    obtain ⟨c, hcf⟩ := Option.isSome_iff_exists.mp hex
    obtain ⟨d, hkey, hcomp⟩ := hcons _ c hcf
    have hhex : toHex (M.hash B) = toHex (M.hash d) := fanoutPath_inj hkey
    have hd : d = B := hnc d (toHex_inj (hv d) hvB hhex.symm)
    subst hd
    unfold storeRead
    rw [hfrom]
    simp only [Option.some_bind, hcf, Option.map_some']
    rw [hcomp, hc d]
  · rw [if_neg hex]
    unfold storeRead
    rw [hfrom]
    simp only [Option.some_bind]
    unfold Fs.write
    rw [if_pos rfl]
    simp only [Option.map_some']
    rw [hc B]

/-- C3 (witness): the round-trip at the buffer `[42]`, in an empty
store, with a digest that is collision-free at `[42]` and the identity
codec. -/
theorem store_roundtrip_witness :
    HashValid probeModel ∧ CompressionFaithful probeModel ∧
    StoreConsistent probeModel Fs.empty ∧
    (∀ d, probeModel.hash d = probeModel.hash [42] → d = [42]) ∧
    storeRead probeModel (storeWrite probeModel Fs.empty [42]).2
      (storeWrite probeModel Fs.empty [42]).1 = some [42] := by
  have hv : HashValid probeModel := by
    intro d
    by_cases hd : d = [42] <;> simp [probeModel, hd, ValidBytes]
  have hnc : ∀ d, probeModel.hash d = probeModel.hash [42] → d = [42] := by
    intro d h
    by_cases hd : d = [42]
    · exact hd
    · rw [probeModel] at h
      simp only [hd, if_false, if_pos rfl, if_true] at h
      exact absurd h (by decide)
  exact ⟨hv, fun d => rfl, storeConsistent_empty probeModel, hnc,
    store_roundtrip probeModel Fs.empty [42] hv (fun d => rfl)
      (storeConsistent_empty probeModel) hnc⟩

/-! ## C4: the chunker -/

theorem contiguous_start_le {total : Nat} :
    ∀ {es : List (Nat × Nat)} {start : Nat},
      Contiguous start total es → start ≤ total := by
  intro es
  induction es with
  | nil => intro start h; exact Nat.le_of_eq h
  | cons e rest ih =>
    intro start h
    have h2 := ih h.2
    omega

theorem contiguous_entry_le {total : Nat} :
    ∀ {es : List (Nat × Nat)} {start : Nat},
      Contiguous start total es → ∀ e ∈ es, e.1 + e.2 ≤ total := by
  intro es
  induction es with
  | nil => intro start _ e he; cases he
  | cons f rest ih =>
    intro start h e he
    obtain ⟨hoff, hrest⟩ := h
    rcases he with _ | ⟨_, hmem⟩
    · have := contiguous_start_le hrest
      omega
    · exact ih hrest e hmem

theorem chunkLoop_join (hash : List Nat → List Nat) (data : List Nat) :
    ∀ (es : List (Nat × Nat)) (start off : Nat),
      Contiguous start data.length es →
      ((chunkLoop hash data es off).map (·.data)).flatten = data.drop start := by
  intro es
  induction es with
  | nil =>
    intro start off h
    rw [show start = data.length from h]
    simp [chunkLoop]
  | cons e rest ih =>
    intro start off h
    obtain ⟨hoff, hrest⟩ := h
    cases e with
    | mk eoff elen =>
      simp only at hoff hrest
      subst hoff
      simp only [chunkLoop, List.map_cons, List.flatten_cons]
      rw [ih (eoff + elen) (off + elen) hrest]
      rw [show List.drop (eoff + elen) data = List.drop elen (List.drop eoff data) from by
        rw [List.drop_drop, Nat.add_comm]]
      exact List.take_append_drop elen (List.drop eoff data)

theorem chunkLoop_fields (hash : List Nat → List Nat) (data : List Nat) :
    ∀ (es : List (Nat × Nat)) (off : Nat),
      ∀ c ∈ chunkLoop hash data es off,
        ∃ e ∈ es, c.oid = hash c.data ∧ c.length = e.2 ∧
          c.data = (data.drop e.1).take e.2 := by
  intro es
  induction es with
  | nil => intro off c hc; cases hc
  | cons e rest ih =>
    intro off c hc
    cases e with
    | mk eoff elen =>
      simp only [chunkLoop] at hc
      rcases hc with _ | ⟨_, hmem⟩
      · exact ⟨(eoff, elen), by simp, rfl, rfl, rfl⟩
      · obtain ⟨f, hf, hrest⟩ := ih (off + elen) c hmem
        exact ⟨f, by simp [hf], hrest⟩

theorem chunkLoop_map_length (hash : List Nat → List Nat) (data : List Nat) :
    ∀ (es : List (Nat × Nat)) (off : Nat),
      (chunkLoop hash data es off).map (·.length) = es.map (·.2) := by
  intro es
  induction es with
  | nil => intro off; rfl
  | cons e rest ih =>
    intro off
    cases e with
    | mk eoff elen => simp only [chunkLoop, List.map_cons, ih]

/-- C4 (amended): the chunks concatenate back to the input; every
chunk's OID is the hash of that chunk's bytes; every chunk has positive
length at most `max_size`, with the recorded length equal to the data
length; every chunk except possibly the last is at least `min_size`
long (the final chunk — e.g. the single chunk of an input shorter than
`min_size` — may be shorter); and empty input yields no chunks. -/
theorem chunkBytes_spec (cut : Cutter) (hash : List Nat → List Nat)
    (cfg : ChunkerCfg) (data : List Nat) (hc : FastCDCContract cfg cut) :
    ((chunkBytes cut hash cfg data).map (·.data)).flatten = data ∧
    (∀ c ∈ chunkBytes cut hash cfg data,
      c.oid = hash c.data ∧ 0 < c.length ∧ c.length ≤ cfg.max_size ∧
      c.data.length = c.length) ∧
    (∀ c ∈ (chunkBytes cut hash cfg data).dropLast,
      cfg.min_size ≤ c.length) ∧
    chunkBytes cut hash cfg [] = [] := by
  by_cases hdata : data = []
  · subst hdata
    refine ⟨rfl, ?_, ?_, rfl⟩ <;> intro c hcm <;> simp [chunkBytes] at hcm
  obtain ⟨hne, hcont, hbounds, hmin⟩ := hc data hdata
  have hchunks : chunkBytes cut hash cfg data =
      chunkLoop hash data (cut cfg data) 0 := by
    unfold chunkBytes
    rw [if_neg hdata]
  refine ⟨?_, ?_, ?_, rfl⟩
  · rw [hchunks, chunkLoop_join hash data (cut cfg data) 0 0 hcont]
    rfl
  · intro c hcm
    rw [hchunks] at hcm
    obtain ⟨e, he, hoid, hlen, hdat⟩ := chunkLoop_fields hash data _ 0 c hcm
    obtain ⟨hpos, hmax⟩ := hbounds e he
    have hin : e.1 + e.2 ≤ data.length := contiguous_entry_le hcont e he
    refine ⟨hoid, by omega, by omega, ?_⟩
    rw [hdat, hlen, List.length_take, List.length_drop]
    omega
  · intro c hcm
    rw [hchunks] at hcm
    have hlm : c.length ∈ ((chunkLoop hash data (cut cfg data) 0).dropLast).map
        (·.length) := List.mem_map_of_mem _ hcm
    rw [List.map_dropLast, chunkLoop_map_length, ← List.map_dropLast] at hlm
    obtain ⟨e, he, hee⟩ := List.mem_map.mp hlm
    rw [← hee]
    exact hmin e he

theorem chopFrom_cover (bump : Nat) :
    ∀ (rem start : Nat), Contiguous start (start + rem) (chopFrom bump rem start) := by
  intro rem
  induction rem using Nat.strong_induction_on with
  | _ rem ih =>
    intro start
    match rem with
    | 0 =>
      unfold chopFrom
      show start = start + 0
      omega
    | r + 1 =>
      unfold chopFrom
      by_cases hle : r + 1 ≤ bump + 1
      · rw [if_pos hle]
        exact ⟨rfl, rfl⟩
      · rw [if_neg hle]
        refine ⟨rfl, ?_⟩
        have hrec := ih (r - bump) (by omega) (start + (bump + 1))
        rw [show start + (bump + 1) + (r - bump) = start + (r + 1) from by omega] at hrec
        exact hrec

theorem chopFrom_bounds (bump : Nat) :
    ∀ (rem start : Nat), ∀ e ∈ chopFrom bump rem start,
      0 < e.2 ∧ e.2 ≤ bump + 1 := by
  intro rem
  induction rem using Nat.strong_induction_on with
  | _ rem ih =>
    intro start e he
    match rem, he with
    | 0, he => exact absurd he (by simp [chopFrom])
    | r + 1, he =>
      unfold chopFrom at he
      by_cases hle : r + 1 ≤ bump + 1
      · rw [if_pos hle] at he
        rcases he with _ | ⟨_, hm⟩
        · exact ⟨by omega, by omega⟩
        · cases hm
      · rw [if_neg hle] at he
        rcases he with _ | ⟨_, hm⟩
        · exact ⟨by omega, by omega⟩
        · exact ih (r - bump) (by omega) (start + (bump + 1)) e hm

theorem chopFrom_ne_nil (bump : Nat) (r start : Nat) :
    chopFrom bump (r + 1) start ≠ [] := by
  unfold chopFrom
  by_cases hle : r + 1 ≤ bump + 1
  · rw [if_pos hle]
    simp
  · rw [if_neg hle]
    simp

theorem chopFrom_dropLast (bump : Nat) :
    ∀ (rem start : Nat), ∀ e ∈ (chopFrom bump rem start).dropLast,
      e.2 = bump + 1 := by
  intro rem
  induction rem using Nat.strong_induction_on with
  | _ rem ih =>
    intro start e he
    match rem, he with
    | 0, he => exact absurd he (by simp [chopFrom])
    | r + 1, he =>
      unfold chopFrom at he
      by_cases hle : r + 1 ≤ bump + 1
      · rw [if_pos hle] at he
        cases he
      · rw [if_neg hle] at he
        have hne : chopFrom bump (r - bump) (start + (bump + 1)) ≠ [] := by
          have : r - bump = (r - bump - 1) + 1 := by omega
          rw [this]
          exact chopFrom_ne_nil bump _ _
        rw [List.dropLast_cons_of_ne_nil hne] at he
        rcases he with _ | ⟨_, hm⟩
        · rfl
        · exact ih (r - bump) (by omega) (start + (bump + 1)) e hm

/-- `chopCut` satisfies the FastCDC contract for any configuration with
`1 ≤ max_size` and `min_size ≤ max_size`. -/
theorem chopCut_contract (cfg : ChunkerCfg) (hmax : 1 ≤ cfg.max_size)
    (hmin : cfg.min_size ≤ cfg.max_size) :
    FastCDCContract cfg chopCut := by
  intro data hdata
  have hbump : max 1 cfg.max_size - 1 + 1 = cfg.max_size := by omega
  refine ⟨?_, ?_, ?_, ?_⟩
  · unfold chopCut
    cases hl : data.length with
    | zero => exact absurd (List.eq_nil_of_length_eq_zero hl) hdata
    | succ r => exact chopFrom_ne_nil _ r 0
  · have := chopFrom_cover (max 1 cfg.max_size - 1) data.length 0
    simpa using this
  · intro e he
    have := chopFrom_bounds (max 1 cfg.max_size - 1) data.length 0 e he
    omega
  · intro e he
    have := chopFrom_dropLast (max 1 cfg.max_size - 1) data.length 0 e he
    omega

/-- Any cutter satisfying the contract yields exactly one chunk, of
length 1, on a one-byte input: the cover forces it. -/
theorem short_input_single_chunk (cut : Cutter) (hash : List Nat → List Nat)
    (hc : FastCDCContract defaultCfg cut) :
    (chunkBytes cut hash defaultCfg [7]).map (·.length) = [1] := by
  obtain ⟨hne, hcont, hbounds, hmin⟩ := hc [7] (by decide)
  have hchunks : chunkBytes cut hash defaultCfg [7] =
      chunkLoop hash [7] (cut defaultCfg [7]) 0 := by
    unfold chunkBytes
    rw [if_neg (by decide)]
  rw [hchunks, chunkLoop_map_length]
  cases hes : cut defaultCfg [7] with
  | nil => exact absurd hes hne
  | cons e rest =>
    rw [hes] at hcont
    obtain ⟨hoff, hrest⟩ := hcont
    cases rest with
    | nil =>
      have he2 : e.1 + e.2 = 1 := by
        have : e.2 + 0 + e.1 = 1 := by
          have h0 : (0 : Nat) + e.2 = 1 := hrest
          omega
        omega
      have hpos := (hbounds e (by rw [hes]; simp)).1
      have hoff0 : e.1 = 0 := hoff
      simp only [List.map_cons, List.map_nil, List.cons.injEq]
      exact ⟨by omega, trivial⟩
    | cons e2 rest2 =>
      exfalso
      have h1 : 0 + e.2 ≤ 1 := contiguous_start_le hrest
      have h2 : defaultCfg.min_size ≤ e.2 := by
        refine hmin e ?_
        rw [hes, List.dropLast_cons_of_ne_nil (by simp)]
        simp
      have : defaultCfg.min_size = 4096 := rfl
      omega

/-- C4 (counterexample): with the default configuration (`min_size` =
4096) a one-byte input produces a single chunk of length 1, which lies
outside `[min, max]`: the concrete `chopCut` instance satisfies the
FastCDC contract, and under that contract any cutter is forced to this
result on a one-byte input (`short_input_single_chunk`). -/
theorem chunk_below_min :
    FastCDCContract defaultCfg chopCut ∧
    (chunkBytes chopCut (fun d => d) defaultCfg [7]).map (·.length) = [1] ∧
    ¬ (defaultCfg.min_size ≤ 1) :=
  ⟨chopCut_contract defaultCfg (by decide) (by decide),
   short_input_single_chunk chopCut (fun d => d)
     (chopCut_contract defaultCfg (by decide) (by decide)),
   by decide⟩

/-- C4 (witness): the amended statement evaluated with the concrete
contract-satisfying cutter on a three-byte input. -/
theorem chunkBytes_spec_witness :
    FastCDCContract defaultCfg chopCut ∧
    ((chunkBytes chopCut (fun d => d) defaultCfg [1, 2, 3]).map (·.data)).flatten =
      [1, 2, 3] ∧
    chunkBytes chopCut (fun d => d) defaultCfg [] = [] := by
  have hcc := chopCut_contract defaultCfg (by decide) (by decide)
  exact ⟨hcc, (chunkBytes_spec chopCut (fun d => d) defaultCfg [1, 2, 3] hcc).1,
    (chunkBytes_spec chopCut (fun d => d) defaultCfg [1, 2, 3] hcc).2.2.2⟩

/-! ## C7: the exported Git tree -/

theorem treeGet_cons (x : String × GitNode) (t : GitTree) (n : String) :
    treeGet (x :: t) n = if x.1 = n then some x.2 else treeGet t n := by
  unfold treeGet
  by_cases h : x.1 = n
  · rw [List.find?_cons_of_pos _ (by simp [h]), if_pos h]
    rfl
  · rw [List.find?_cons_of_neg _ (by simp [h]), if_neg h]

theorem treeGet_insert_self (t : GitTree) (n : String) (v : GitNode) :
    treeGet (treeInsert t n v) n = some v := by
  induction t with
  | nil => simp [treeInsert, treeGet_cons]
  | cons e rest ih =>
    unfold treeInsert
    by_cases he : e.1 = n
    · rw [if_pos he, treeGet_cons, if_pos rfl]
    · rw [if_neg he, treeGet_cons, if_neg he]
      exact ih

theorem treeGet_insert_other (t : GitTree) (n m : String) (v : GitNode)
    (hne : m ≠ n) : treeGet (treeInsert t n v) m = treeGet t m := by
  induction t with
  | nil => simp [treeInsert, treeGet_cons, treeGet, Ne.symm hne]
  | cons e rest ih =>
    cases e with
    | mk e1 e2 =>
      unfold treeInsert
      by_cases he : (e1, e2).1 = n
      · simp only at he
        subst he
        rw [if_pos rfl, treeGet_cons, treeGet_cons]
        simp [Ne.symm hne]
      · rw [if_neg he, treeGet_cons, treeGet_cons]
        by_cases hem : (e1, e2).1 = m
        · rw [if_pos hem, if_pos hem]
        · rw [if_neg hem, if_neg hem]
          exact ih

theorem goList_eq_all (es : GitTree) :
    nodeDirsOk.goList es = es.all (fun e => nodeDirsOk e.2) := by
  induction es with
  | nil => rfl
  | cons e rest ih => simp [nodeDirsOk.goList, List.all_cons, ih]

theorem treeDirsOk_node {t : GitTree} {n : String} {nd : GitNode}
    (ht : treeDirsOk t = true) (h : treeGet t n = some nd) :
    nodeDirsOk nd = true := by
  unfold treeGet at h
  obtain ⟨pair, hfind, hp⟩ := Option.map_eq_some'.mp h
  have hmem : pair ∈ t := List.mem_of_find?_eq_some hfind
  subst hp
  exact List.all_eq_true.mp ht pair hmem

theorem treeDirsOk_insert {t : GitTree} {n : String} {v : GitNode}
    (ht : treeDirsOk t = true) (hv : nodeDirsOk v = true) :
    treeDirsOk (treeInsert t n v) = true := by
  induction t with
  | nil => simp [treeInsert, treeDirsOk, hv]
  | cons e rest ih =>
    unfold treeDirsOk at ht
    rw [List.all_cons] at ht
    obtain ⟨he, hrest⟩ := Bool.and_eq_true_iff.mp ht
    unfold treeInsert
    by_cases hen : e.1 = n
    · rw [if_pos hen]
      unfold treeDirsOk
      rw [List.all_cons, hv, hrest]
      rfl
    · rw [if_neg hen]
      have h2 := ih hrest
      unfold treeDirsOk at h2 ⊢
      rw [List.all_cons, he, h2]
      rfl

theorem subTree_dirsOk {t : GitTree} {n : String} {dm : Nat} {es : GitTree}
    (ht : treeDirsOk t = true) (h : treeGet t n = some (.tree dm es)) :
    treeDirsOk es = true ∧ dm = 0o040000 := by
  have hn := treeDirsOk_node ht h
  unfold nodeDirsOk at hn
  obtain ⟨h1, h2⟩ := Bool.and_eq_true_iff.mp hn
  rw [goList_eq_all] at h2
  exact ⟨h2, by simpa using h1⟩

theorem subOf_dirsOk {t : GitTree} {n : String} (ht : treeDirsOk t = true) :
    treeDirsOk (subOf t n) = true := by
  unfold subOf
  cases hg : treeGet t n with
  | none => rfl
  | some nd =>
    cases nd with
    | blob o md => rfl
    | tree dm es =>
      obtain ⟨hes, hdm⟩ := subTree_dirsOk ht hg
      show treeDirsOk (if dm = 0o040000 then es else []) = true
      rw [if_pos hdm]
      exact hes

theorem addNested_dirsOk :
    ∀ (ps : List String) (t : GitTree) (oid : String) (mode : Nat),
      treeDirsOk t = true → treeDirsOk (addNestedPath t ps oid mode) = true := by
  intro ps
  induction ps with
  | nil => intro t oid mode ht; exact ht
  | cons n tail ih =>
    intro t oid mode ht
    cases tail with
    | nil => exact treeDirsOk_insert ht rfl
    | cons m rest2 =>
      unfold addNestedPath
      refine treeDirsOk_insert ht ?_
      unfold nodeDirsOk
      rw [goList_eq_all]
      have h3 := ih _ oid mode (subOf_dirsOk ht (n := n))
      unfold treeDirsOk at h3
      rw [h3]
      rfl

theorem stemOf_cons {n : String} {xs ys : List String} :
    StemOf (n :: xs) (n :: ys) ↔ StemOf xs ys := by
  unfold StemOf
  simp [List.take_succ_cons]

theorem stemOf_head (n : String) (ys : List String) :
    StemOf [n] (n :: ys) := by
  unfold StemOf
  simp [List.take_succ_cons]

theorem blobAt_nil_tree (qs : List String) : blobAt ([] : GitTree) qs = none := by
  cases qs with
  | nil => rfl
  | cons q qt =>
    cases qt with
    | nil => rfl
    | cons q2 qrest => rfl

theorem blobAt_single (t : GitTree) (n : String) :
    blobAt t [n] =
      (match treeGet t n with
        | some (.blob oid mode) => some (oid, mode)
        | _ => none) := rfl

theorem treeLookup_pair (t : GitTree) (n m : String) (rest : List String) :
    treeLookup t (n :: m :: rest) =
      (match treeGet t n with
        | some (.tree _ es) => treeLookup es (m :: rest)
        | _ => none) := rfl

theorem blobAt_pair (t : GitTree) (n m : String) (rest : List String) :
    blobAt t (n :: m :: rest) =
      (match treeGet t n with
        | some (.tree _ es) => blobAt es (m :: rest)
        | _ => none) := by
  unfold blobAt
  rw [treeLookup_pair]
  cases hg : treeGet t n with
  | none => rfl
  | some nd =>
    cases nd with
    | blob o md => rfl
    | tree dm es => rfl

theorem blobAt_cons_subOf {t : GitTree} (ht : treeDirsOk t = true)
    (n m : String) (rest : List String) :
    blobAt t (n :: m :: rest) = blobAt (subOf t n) (m :: rest) := by
  rw [blobAt_pair]
  unfold subOf
  cases hg : treeGet t n with
  | none => rw [blobAt_nil_tree]
  | some nd =>
    cases nd with
    | blob o md => rw [blobAt_nil_tree]
    | tree dm es =>
      obtain ⟨hes, hdm⟩ := subTree_dirsOk ht hg
      show blobAt es (m :: rest) = blobAt (if dm = 0o040000 then es else []) (m :: rest)
      rw [if_pos hdm]

theorem blobAt_addNested_self (ps : List String) :
    ∀ (t : GitTree) (oid : String) (mode : Nat), ps ≠ [] →
      blobAt (addNestedPath t ps oid mode) ps = some (oid, mode) := by
  induction ps with
  | nil => intro t oid mode h; exact absurd rfl h
  | cons n tail ih =>
    intro t oid mode _
    cases tail with
    | nil =>
      unfold addNestedPath
      rw [blobAt_single, treeGet_insert_self]
    | cons m rest2 =>
      unfold addNestedPath
      rw [blobAt_pair, treeGet_insert_self]
      exact ih (subOf t n) oid mode (by simp)

theorem blobAt_addNested_frame (ps : List String) :
    ∀ (qs : List String) (t : GitTree) (oid : String) (mode : Nat),
      treeDirsOk t = true → ps ≠ [] → qs ≠ [] → ps ≠ qs →
      ¬ StemOf ps qs → ¬ StemOf qs ps →
      blobAt (addNestedPath t ps oid mode) qs = blobAt t qs := by
  induction ps with
  | nil => intro qs t oid mode _ h; exact absurd rfl h
  | cons n tail ih =>
    intro qs t oid mode ht _ hqs hne hs1 hs2
    cases tail with
    | nil =>
      unfold addNestedPath
      cases qs with
      | nil => exact absurd rfl hqs
      | cons q qtail =>
        by_cases hqn : q = n
        · subst hqn
          cases qtail with
          | nil => exact absurd rfl hne
          | cons q2 qrest => exact absurd (stemOf_head q (q2 :: qrest)) hs1
        · cases qtail with
          | nil =>
            rw [blobAt_single, blobAt_single, treeGet_insert_other _ _ _ _ hqn]
          | cons q2 qrest =>
            rw [blobAt_pair, blobAt_pair, treeGet_insert_other _ _ _ _ hqn]
    | cons m rest2 =>
      unfold addNestedPath
      cases qs with
      | nil => exact absurd rfl hqs
      | cons q qtail =>
        by_cases hqn : q = n
        · subst hqn
          cases qtail with
          | nil => exact absurd (stemOf_head q (m :: rest2)) hs2
          | cons q2 qrest =>
            rw [blobAt_pair, treeGet_insert_self]
            show blobAt (addNestedPath (subOf t q) (m :: rest2) oid mode)
                (q2 :: qrest) = blobAt t (q :: q2 :: qrest)
            have hstem1 : ¬ StemOf (m :: rest2) (q2 :: qrest) :=
              fun hc => hs1 (stemOf_cons.mpr hc)
            have hstem2 : ¬ StemOf (q2 :: qrest) (m :: rest2) :=
              fun hc => hs2 (stemOf_cons.mpr hc)
            have hnetail : (m :: rest2) ≠ (q2 :: qrest) :=
              fun hc => hne (by rw [hc])
            rw [ih (q2 :: qrest) (subOf t q) oid mode (subOf_dirsOk ht)
              (by simp) (by simp) hnetail hstem1 hstem2]
            exact (blobAt_cons_subOf ht q q2 qrest).symm
        · cases qtail with
          | nil =>
            rw [blobAt_single, blobAt_single, treeGet_insert_other _ _ _ _ hqn]
          | cons q2 qrest =>
            rw [blobAt_pair, blobAt_pair, treeGet_insert_other _ _ _ _ hqn]

theorem blobAt_addNested_complete (ps : List String) :
    ∀ (qs : List String) (t : GitTree) (oid : String) (mode : Nat)
      (r : String × Nat),
      blobAt (addNestedPath t ps oid mode) qs = some r →
      (qs = ps ∧ r = (oid, mode)) ∨ blobAt t qs = some r := by
  induction ps with
  | nil => intro qs t oid mode r h; exact Or.inr h
  | cons n tail ih =>
    intro qs t oid mode r h
    cases tail with
    | nil =>
      unfold addNestedPath at h
      cases qs with
      | nil =>
        have h2 : (none : Option (String × Nat)) = some r := h
        cases h2
      | cons q qtail =>
        by_cases hqn : q = n
        · subst hqn
          cases qtail with
          | nil =>
            rw [blobAt_single, treeGet_insert_self] at h
            have h2 : some (oid, mode) = some r := h
            exact Or.inl ⟨rfl, (Option.some.inj h2).symm⟩
          | cons q2 qrest =>
            rw [blobAt_pair, treeGet_insert_self] at h
            have h2 : (none : Option (String × Nat)) = some r := h
            cases h2
        · cases qtail with
          | nil =>
            rw [blobAt_single, treeGet_insert_other _ _ _ _ hqn] at h
            exact Or.inr (by rw [blobAt_single]; exact h)
          | cons q2 qrest =>
            rw [blobAt_pair, treeGet_insert_other _ _ _ _ hqn] at h
            exact Or.inr (by rw [blobAt_pair]; exact h)
    | cons m rest2 =>
      unfold addNestedPath at h
      cases qs with
      | nil =>
        have h2 : (none : Option (String × Nat)) = some r := h
        cases h2
      | cons q qtail =>
        by_cases hqn : q = n
        · subst hqn
          cases qtail with
          | nil =>
            rw [blobAt_single, treeGet_insert_self] at h
            have h2 : (none : Option (String × Nat)) = some r := h
            cases h2
          | cons q2 qrest =>
            rw [blobAt_pair, treeGet_insert_self] at h
            have h2 : blobAt (addNestedPath (subOf t q) (m :: rest2) oid mode)
                (q2 :: qrest) = some r := h
            rcases ih (q2 :: qrest) (subOf t q) oid mode r h2 with ⟨heq, hr⟩ | hold
            · exact Or.inl ⟨by rw [heq], hr⟩
            · refine Or.inr ?_
              rw [blobAt_pair]
              unfold subOf at hold
              cases hg : treeGet t q with
              | none =>
                rw [hg] at hold
                rw [blobAt_nil_tree] at hold
                cases hold
              | some nd =>
                cases nd with
                | blob o md =>
                  rw [hg] at hold
                  rw [blobAt_nil_tree] at hold
                  cases hold
                | tree dm es =>
                  rw [hg] at hold
                  by_cases hdm : dm = 0o040000
                  · have h3 : blobAt es (q2 :: qrest) = some r := by
                      have h4 : blobAt (if dm = 0o040000 then es else [])
                          (q2 :: qrest) = some r := hold
                      rw [if_pos hdm] at h4
                      exact h4
                    exact h3
                  · have h4 : blobAt (if dm = 0o040000 then es else [])
                        (q2 :: qrest) = some r := hold
                    rw [if_neg hdm, blobAt_nil_tree] at h4
                    cases h4
        · cases qtail with
          | nil =>
            rw [blobAt_single, treeGet_insert_other _ _ _ _ hqn] at h
            exact Or.inr (by rw [blobAt_single]; exact h)
          | cons q2 qrest =>
            rw [blobAt_pair, treeGet_insert_other _ _ _ _ hqn] at h
            exact Or.inr (by rw [blobAt_pair]; exact h)

theorem splitSlash_go_ne_nil : ∀ (cs acc : List Char),
    splitSlash.go cs acc ≠ [] := by
  intro cs
  induction cs with
  | nil => intro acc; simp [splitSlash.go]
  | cons c rest ih =>
    intro acc
    unfold splitSlash.go
    by_cases hc : c = '/'
    · rw [if_pos hc]
      simp
    · rw [if_neg hc]
      exact ih (c :: acc)

theorem splitSlash_ne_nil (s : String) : splitSlash s ≠ [] :=
  splitSlash_go_ne_nil s.data []

/-- The per-entry step of `build_git_tree`'s fold. -/
theorem buildLoop_dirsOk :
    ∀ (es : List (String × ManifestEntry)) (t : GitTree),
      treeDirsOk t = true →
      treeDirsOk (es.foldl (fun t pe =>
        if exportFiltered pe.1 then t
        else addNestedPath t (splitSlash pe.1) pe.2.oid
          (gitFileMode pe.2.permissions)) t) = true := by
  intro es
  induction es with
  | nil => intro t ht; exact ht
  | cons e rest ih =>
    intro t ht
    rw [List.foldl_cons]
    refine ih _ ?_
    by_cases he : exportFiltered e.1
    · rw [if_pos he]
      exact ht
    · rw [if_neg he]
      exact addNested_dirsOk _ _ _ _ ht

theorem buildLoop_frame :
    ∀ (es : List (String × ManifestEntry)) (t : GitTree) (qs : List String),
      treeDirsOk t = true → qs ≠ [] →
      (∀ pe ∈ es, exportFiltered pe.1 = false →
        splitSlash pe.1 ≠ qs ∧ ¬ StemOf (splitSlash pe.1) qs ∧
        ¬ StemOf qs (splitSlash pe.1)) →
      blobAt (es.foldl (fun t pe =>
        if exportFiltered pe.1 then t
        else addNestedPath t (splitSlash pe.1) pe.2.oid
          (gitFileMode pe.2.permissions)) t) qs = blobAt t qs := by
  intro es
  induction es with
  | nil => intro t qs _ _ _; rfl
  | cons e rest ih =>
    intro t qs ht hqs hcond
    rw [List.foldl_cons]
    by_cases he : exportFiltered e.1
    · rw [if_pos he]
      exact ih t qs ht hqs fun pe hpe hf => hcond pe (by simp [hpe]) hf
    · rw [if_neg he]
      obtain ⟨h1, h2, h3⟩ := hcond e (by simp) (by simpa using he)
      rw [ih _ qs (addNested_dirsOk _ _ _ _ ht) hqs
        (fun pe hpe hf => hcond pe (by simp [hpe]) hf)]
      exact blobAt_addNested_frame (splitSlash e.1) qs t _ _ ht
        (splitSlash_ne_nil e.1) hqs h1 h2 h3

theorem buildLoop_found :
    ∀ (es : List (String × ManifestEntry)) (t : GitTree)
      (pe : String × ManifestEntry),
      pe ∈ es → exportFiltered pe.1 = false → treeDirsOk t = true →
      es.Pairwise (fun pe qe =>
        splitSlash pe.1 ≠ splitSlash qe.1 ∧
        ¬ StemOf (splitSlash pe.1) (splitSlash qe.1) ∧
        ¬ StemOf (splitSlash qe.1) (splitSlash pe.1)) →
      blobAt (es.foldl (fun t pe =>
        if exportFiltered pe.1 then t
        else addNestedPath t (splitSlash pe.1) pe.2.oid
          (gitFileMode pe.2.permissions)) t) (splitSlash pe.1) =
        some (pe.2.oid, gitFileMode pe.2.permissions) := by
  intro es
  induction es with
  | nil => intro t pe hmem; cases hmem
  | cons e rest ih =>
    intro t pe hmem hf ht hpw
    rw [List.pairwise_cons] at hpw
    obtain ⟨hhead, htail⟩ := hpw
    rw [List.foldl_cons]
    rcases hmem with _ | ⟨_, hmem⟩
    · rw [if_neg (by simpa using hf)]
      rw [buildLoop_frame rest _ (splitSlash e.1)
        (addNested_dirsOk _ _ _ _ ht) (splitSlash_ne_nil e.1) ?_]
      · exact blobAt_addNested_self (splitSlash e.1) t _ _ (splitSlash_ne_nil e.1)
      · intro qe hqe _
        obtain ⟨h1, h2, h3⟩ := hhead qe hqe
        exact ⟨Ne.symm h1, h3, h2⟩
    · by_cases he : exportFiltered e.1
      · rw [if_pos he]
        exact ih t pe hmem hf ht htail
      · rw [if_neg he]
        exact ih _ pe hmem hf (addNested_dirsOk _ _ _ _ ht) htail

theorem buildLoop_complete :
    ∀ (es : List (String × ManifestEntry)) (t : GitTree) (qs : List String)
      (r : String × Nat),
      blobAt (es.foldl (fun t pe =>
        if exportFiltered pe.1 then t
        else addNestedPath t (splitSlash pe.1) pe.2.oid
          (gitFileMode pe.2.permissions)) t) qs = some r →
      blobAt t qs = some r ∨
      ∃ pe, pe ∈ es ∧ exportFiltered pe.1 = false ∧ splitSlash pe.1 = qs ∧
        r = (pe.2.oid, gitFileMode pe.2.permissions) := by
  intro es
  induction es with
  | nil => intro t qs r h; exact Or.inl h
  | cons e rest ih =>
    intro t qs r h
    rw [List.foldl_cons] at h
    rcases ih _ qs r h with hstep | ⟨pe, hpe, hrest⟩
    · by_cases he : exportFiltered e.1
      · rw [if_pos he] at hstep
        exact Or.inl hstep
      · rw [if_neg he] at hstep
        rcases blobAt_addNested_complete (splitSlash e.1) qs t _ _ r hstep with
          ⟨heq, hr⟩ | hold
        · exact Or.inr ⟨e, by simp, by simpa using he, heq.symm, hr⟩
        · exact Or.inl hold
    · exact Or.inr ⟨pe, by simp [hpe], hrest⟩

/-- C7: the exported Git tree holds a blob exactly at the slash-split
path of each manifest entry whose path does not begin with `.git` or
`.wind`; entries with such paths are never included; every blob's mode
is `0o100755` when an execute bit is set in the entry's permissions and
`0o100644` otherwise; and every directory node carries mode `0o040000`.
Quantified over export-well-formed manifests (distinct, non-nested
component paths — true of any manifest scanned from a filesystem). -/
theorem buildGitTree_spec (m : Manifest) (hwf : ExportWF m) :
    (∀ pe ∈ m.entries, exportFiltered pe.1 = false →
      blobAt (buildGitTree m) (splitSlash pe.1) =
        some (pe.2.oid, gitFileMode pe.2.permissions)) ∧
    (∀ pe ∈ m.entries, exportFiltered pe.1 = true →
      blobAt (buildGitTree m) (splitSlash pe.1) = none) ∧
    (∀ qs r, blobAt (buildGitTree m) qs = some r →
      ∃ pe, pe ∈ m.entries ∧ exportFiltered pe.1 = false ∧
        splitSlash pe.1 = qs ∧ r = (pe.2.oid, gitFileMode pe.2.permissions)) ∧
    treeDirsOk (buildGitTree m) = true ∧
    (∀ perms, (gitFileMode perms = 0o100755 ↔ perms &&& 0o111 ≠ 0) ∧
      (gitFileMode perms = 0o100644 ↔ perms &&& 0o111 = 0)) := by
  have hcomplete := buildLoop_complete m.entries []
  have hmode : ∀ perms, (gitFileMode perms = 0o100755 ↔ perms &&& 0o111 ≠ 0) ∧
      (gitFileMode perms = 0o100644 ↔ perms &&& 0o111 = 0) := by
    intro perms
    unfold gitFileMode
    by_cases h : perms &&& 0o111 ≠ 0
    · rw [if_pos h]
      constructor
      · exact ⟨fun _ => h, fun _ => rfl⟩
      · exact ⟨fun hc => absurd hc (by decide), fun hc => absurd hc h⟩
    · rw [if_neg h]
      push_neg at h
      constructor
      · exact ⟨fun hc => absurd hc (by decide), fun hc => absurd hc (by simp [h])⟩
      · exact ⟨fun _ => h, fun _ => rfl⟩
  refine ⟨?_, ?_, ?_, buildLoop_dirsOk m.entries [] rfl, hmode⟩
  · intro pe hpe hf
    exact buildLoop_found m.entries [] pe hpe hf rfl hwf
  · intro pe hpe hf
    cases hb : blobAt (buildGitTree m) (splitSlash pe.1) with
    | none => rfl
    | some r =>
      exfalso
      obtain ⟨qe, hqe, hqf, hqs, _⟩ := (hcomplete _ r hb).resolve_left
        (by rw [blobAt_nil_tree]; exact fun hc => Option.noConfusion hc)
      have hne : pe ≠ qe := by
        intro hc
        rw [hc, hqf] at hf
        cases hf
      have hsym : Symmetric (fun (pe qe : String × ManifestEntry) =>
          splitSlash pe.1 ≠ splitSlash qe.1 ∧
          ¬ StemOf (splitSlash pe.1) (splitSlash qe.1) ∧
          ¬ StemOf (splitSlash qe.1) (splitSlash pe.1)) := by
        intro a b ⟨h1, h2, h3⟩
        exact ⟨Ne.symm h1, h3, h2⟩
      have hr := hwf.forall hsym hpe hqe hne
      exact hr.1 hqs.symm
  · intro qs r hb
    exact (hcomplete qs r hb).resolve_left
      (by rw [blobAt_nil_tree]; exact fun hc => Option.noConfusion hc)

/-- C7 (witness): a three-entry manifest — `.gitignore` filtered out,
`a` (mode 755) and `d/e` (mode 644) materialised, directories at
`0o040000`. -/
theorem buildGitTree_spec_witness :
    ExportWF ⟨[(".gitignore", ⟨"n0", "o0", 420⟩), ("a", ⟨"n1", "o1", 493⟩),
      ("d/e", ⟨"n2", "o2", 420⟩)]⟩ ∧
    blobAt (buildGitTree ⟨[(".gitignore", ⟨"n0", "o0", 420⟩),
      ("a", ⟨"n1", "o1", 493⟩), ("d/e", ⟨"n2", "o2", 420⟩)]⟩)
        (splitSlash "a") = some ("o1", 0o100755) ∧
    blobAt (buildGitTree ⟨[(".gitignore", ⟨"n0", "o0", 420⟩),
      ("a", ⟨"n1", "o1", 493⟩), ("d/e", ⟨"n2", "o2", 420⟩)]⟩)
        (splitSlash "d/e") = some ("o2", 0o100644) ∧
    blobAt (buildGitTree ⟨[(".gitignore", ⟨"n0", "o0", 420⟩),
      ("a", ⟨"n1", "o1", 493⟩), ("d/e", ⟨"n2", "o2", 420⟩)]⟩)
        (splitSlash ".gitignore") = none ∧
    treeDirsOk (buildGitTree ⟨[(".gitignore", ⟨"n0", "o0", 420⟩),
      ("a", ⟨"n1", "o1", 493⟩), ("d/e", ⟨"n2", "o2", 420⟩)]⟩) = true := by
  have hwf : ExportWF ⟨[(".gitignore", ⟨"n0", "o0", 420⟩),
      ("a", ⟨"n1", "o1", 493⟩), ("d/e", ⟨"n2", "o2", 420⟩)]⟩ := by decide
  have hspec := buildGitTree_spec _ hwf
  refine ⟨hwf, ?_, ?_, ?_, hspec.2.2.2.1⟩
  · have h := hspec.1 ("a", ⟨"n1", "o1", 493⟩) (by decide) (by decide)
    rw [show gitFileMode 493 = 0o100755 from by decide] at h
    exact h
  · have h := hspec.1 ("d/e", ⟨"n2", "o2", 420⟩) (by decide) (by decide)
    rw [show gitFileMode 420 = 0o100644 from by decide] at h
    exact h
  · exact hspec.2.1 (".gitignore", ⟨"n0", "o0", 420⟩) (by decide) (by decide)

end Wind
